import Mathlib

/-!
Verification of the Patrol error-analysis core: fingerprinting (hashing.py),
bounded expiring cache (cache.py) and the single-flight orchestration engine
(engine.py), shallowly embedded in Lean.

Python regex substitutions are embedded as character scanners.  Functions whose
recursion consumes a non-structural suffix take an explicit fuel argument equal
to the input length, so that everything reduces in the kernel; fuel-irrelevance
lemmas recover the natural unfolding equations.
-/

namespace Patrol

/-! ## Character-level helpers -/

/-- The scanner for `re.sub(r"q[^q]*q", "qXq", s)` (with `q` a quote char):
replace every quoted literal by a placeholder.  `fuel` bounds recursion depth. -/
def subQuoteF (q : Char) : Nat → List Char → List Char
  | 0, l => l
  | _ + 1, [] => []
  | fuel + 1, c :: rest =>
    if c = q then
      match rest.dropWhile (· != q) with
      | _ :: after => q :: 'X' :: q :: subQuoteF q fuel after
      | [] => c :: rest
    else c :: subQuoteF q fuel rest

/-- `re.sub(r"q[^q]*q", "qXq", s)` for a quote character `q`. -/
def subQuote (q : Char) (l : List Char) : List Char := subQuoteF q l.length l

/-- One step of `re.sub(r'\d+', 'N', s)`: `prevDigit` records whether the
previous character was a digit (i.e. we are inside a run already replaced). -/
def subDigitsAux : Bool → List Char → List Char
  | _, [] => []
  | prevDigit, c :: rest =>
    if c.isDigit then
      if prevDigit then subDigitsAux true rest
      else 'N' :: subDigitsAux true rest
    else c :: subDigitsAux false rest

/-- `re.sub(r'\d+', 'N', s)`: every maximal digit run becomes a single `N`. -/
def subDigits (l : List Char) : List Char := subDigitsAux false l

/-- The scanner for `re.sub(r':\d+:\d+', ':X:X', s)`. -/
def subColonF : Nat → List Char → List Char
  | 0, l => l
  | _ + 1, [] => []
  | fuel + 1, c :: rest =>
    if c = ':' then
      let d1 := rest.takeWhile Char.isDigit
      let r1 := rest.dropWhile Char.isDigit
      if d1.isEmpty then c :: subColonF fuel rest
      else
        match r1 with
        | ':' :: r2 =>
          let d2 := r2.takeWhile Char.isDigit
          let r3 := r2.dropWhile Char.isDigit
          if d2.isEmpty then c :: subColonF fuel rest
          else ':' :: 'X' :: ':' :: 'X' :: subColonF fuel r3
        | _ => c :: subColonF fuel rest
    else c :: subColonF fuel rest

/-- `re.sub(r':\d+:\d+', ':X:X', s)`. -/
def subColon (l : List Char) : List Char := subColonF l.length l

/-- Match the prefix pattern `at \d+ms`; on success return the rest of the
input after the match. -/
def matchMs : List Char → Option (List Char)
  | 'a' :: 't' :: ' ' :: rest =>
    match rest.takeWhile Char.isDigit, rest.dropWhile Char.isDigit with
    | [], _ => none
    | _ :: _, 'm' :: 's' :: r2 => some r2
    | _ :: _, _ => none
  | _ => none

/-- The scanner for `re.sub(r'at \d+ms', 'at Xms', s)`. -/
def subMsF : Nat → List Char → List Char
  | 0, l => l
  | _ + 1, [] => []
  | fuel + 1, c :: rest =>
    match matchMs (c :: rest) with
    | some r2 => 'a' :: 't' :: ' ' :: 'X' :: 'm' :: 's' :: subMsF fuel r2
    | none => c :: subMsF fuel rest

/-- `re.sub(r'at \d+ms', 'at Xms', s)`. -/
def subMs (l : List Char) : List Char := subMsF l.length l

/-- `file_path.replace('\\', '/')`. -/
def replaceBS (l : List Char) : List Char :=
  l.map fun c => if c = '\\' then '/' else c

/-- If `l` starts with `/src/`, `/lib/` or `/app/`, return the suffix after
that segment. -/
def rootAfter (l : List Char) : Option (List Char) :=
  if ('/' :: 's' :: 'r' :: 'c' :: '/' :: []).isPrefixOf l then some (l.drop 5)
  else if ('/' :: 'l' :: 'i' :: 'b' :: '/' :: []).isPrefixOf l then some (l.drop 5)
  else if ('/' :: 'a' :: 'p' :: 'p' :: '/' :: []).isPrefixOf l then some (l.drop 5)
  else none

/-- Scan for the greedy (= last reachable) match of `^.*/(src|lib|app)/`:
walk the string keeping the suffix after the most recent root segment seen;
`.*` cannot cross a newline, so the scan stops at the first `'\n'`. -/
def lastRootGo : List Char → Option (List Char) → Option (List Char)
  | [], best => best
  | c :: rest, best =>
    let best' := match rootAfter (c :: rest) with
      | some s => some s
      | none => best
    if c = '\n' then best' else lastRootGo rest best'

/-- The suffix left after the greedy match of `^.*/(src|lib|app)/`, if any. -/
def lastRoot (l : List Char) : Option (List Char) := lastRootGo l none

/-- `re.sub(r'^.*/(src|lib|app)/', '', path)`. -/
def stripRoot (l : List Char) : List Char := (lastRoot l).getD l

/-! ### Fuel irrelevance for the scanners -/

theorem length_dropWhile_le (p : α → Bool) (l : List α) :
    (l.dropWhile p).length ≤ l.length :=
  (List.dropWhile_sublist p).length_le

theorem subQuoteF_fuel (q : Char) :
    ∀ (fuel : Nat) (l : List Char), l.length ≤ fuel →
      subQuoteF q fuel l = subQuoteF q l.length l := by
  intro fuel
  induction fuel using Nat.strong_induction_on with
  | _ fuel ih =>
    intro l hl
    match fuel, l with
    | 0, l =>
      have : l = [] := List.eq_nil_of_length_eq_zero (Nat.le_zero.mp hl)
      subst this; rfl
    | _ + 1, [] => rfl
    | fuel + 1, c :: rest =>
      simp only [List.length_cons, Nat.add_le_add_iff_right] at hl
      by_cases hc : c = q
      · simp only [subQuoteF, hc, if_pos rfl]
        cases hdrop : (rest.dropWhile (· != q)) with
        | nil => rfl
        | cons x after =>
          have hlen : after.length ≤ rest.length := by
            have h1 : (rest.dropWhile (· != q)).length ≤ rest.length :=
              length_dropWhile_le _ _
            rw [hdrop] at h1
            simpa using Nat.le_of_succ_le h1
          have h1 := ih fuel (Nat.lt_succ_self _) after (hlen.trans hl)
          have h2 := ih rest.length (Nat.lt_succ_of_le hl) after hlen
          simp [h1, h2]
      · have h1 := ih fuel (Nat.lt_succ_self _) rest hl
        have h2 := ih rest.length (Nat.lt_succ_of_le hl) rest le_rfl
        simp [subQuoteF, hc, h1, h2]

theorem subQuote_nil (q : Char) : subQuote q [] = [] := rfl

theorem subQuote_cons_ne (q c : Char) (rest : List Char) (hc : c ≠ q) :
    subQuote q (c :: rest) = c :: subQuote q rest := by
  simp [subQuote, subQuoteF, hc, subQuoteF_fuel q rest.length rest le_rfl]

theorem subQuote_cons_match (q : Char) (rest after : List Char)
    (hdrop : rest.dropWhile (· != q) = q :: after) :
    subQuote q (q :: rest) = q :: 'X' :: q :: subQuote q after := by
  have hlen : after.length ≤ rest.length := by
    have h1 : (rest.dropWhile (· != q)).length ≤ rest.length :=
      length_dropWhile_le _ _
    rw [hdrop] at h1
    simpa using Nat.le_of_succ_le h1
  simp [subQuote, subQuoteF, hdrop, subQuoteF_fuel q rest.length after hlen]

theorem subQuote_cons_nomatch (q : Char) (rest : List Char)
    (hdrop : rest.dropWhile (· != q) = []) :
    subQuote q (q :: rest) = q :: rest := by
  simp [subQuote, subQuoteF, hdrop]

theorem takeWhile_append_all (p : α → Bool) (l s : List α) (h : ∀ c ∈ l, p c) :
    (l ++ s).takeWhile p = l ++ s.takeWhile p := by
  induction l with
  | nil => rfl
  | cons c l ih =>
    have hc : p c := h c (by simp)
    simp [List.takeWhile_cons, hc, ih fun x hx => h x (by simp [hx])]

theorem dropWhile_append_all (p : α → Bool) (l s : List α) (h : ∀ c ∈ l, p c) :
    (l ++ s).dropWhile p = s.dropWhile p := by
  induction l with
  | nil => rfl
  | cons c l ih =>
    have hc : p c := h c (by simp)
    simp [List.dropWhile_cons, hc, ih fun x hx => h x (by simp [hx])]

theorem subColonF_fuel :
    ∀ (fuel : Nat) (l : List Char), l.length ≤ fuel →
      subColonF fuel l = subColonF l.length l := by
  intro fuel
  induction fuel using Nat.strong_induction_on with
  | _ fuel ih =>
    intro l hl
    match fuel, l with
    | 0, l =>
      have : l = [] := List.eq_nil_of_length_eq_zero (Nat.le_zero.mp hl)
      subst this; rfl
    | _ + 1, [] => rfl
    | fuel + 1, c :: rest =>
      simp only [List.length_cons, Nat.add_le_add_iff_right] at hl
      have hrest₁ := ih fuel (Nat.lt_succ_self _) rest hl
      have hrest₂ := ih rest.length (Nat.lt_succ_of_le hl) rest le_rfl
      by_cases hc : c = ':'
      · simp only [subColonF, hc, if_pos rfl]
        by_cases hd1 : (rest.takeWhile Char.isDigit).isEmpty
        · simp [hd1, hrest₁, hrest₂]
        · simp only [hd1, if_neg, Bool.false_eq_true, not_false_iff]
          cases hr1 : rest.dropWhile Char.isDigit with
          | nil => simp [hrest₁, hrest₂]
          | cons x r2 =>
            by_cases hx : x = ':'
            · subst hx
              by_cases hd2 : (r2.takeWhile Char.isDigit).isEmpty
              · simp [hd2, hrest₁, hrest₂]
              · have hlenr2 : r2.length < rest.length := by
                  have h1 : (rest.dropWhile Char.isDigit).length ≤ rest.length :=
                    length_dropWhile_le _ _
                  rw [hr1] at h1
                  simp only [List.length_cons] at h1
                  omega
                have hlen3 : (r2.dropWhile Char.isDigit).length ≤ r2.length :=
                  length_dropWhile_le _ _
                have h1 := ih fuel (Nat.lt_succ_self _) (r2.dropWhile Char.isDigit)
                  (by omega)
                have h2 := ih rest.length (Nat.lt_succ_of_le hl)
                  (r2.dropWhile Char.isDigit) (by omega)
                simp [hd2, h1, h2]
            · simp [hx, hrest₁, hrest₂]
      · simp [subColonF, hc, hrest₁, hrest₂]

theorem subColon_nil : subColon [] = [] := rfl

theorem subColon_cons_ne (c : Char) (rest : List Char) (hc : c ≠ ':') :
    subColon (c :: rest) = c :: subColon rest := by
  simp [subColon, subColonF, hc, subColonF_fuel rest.length rest le_rfl]

theorem subColon_cons_nodigit (rest : List Char)
    (h : (rest.takeWhile Char.isDigit).isEmpty) :
    subColon (':' :: rest) = ':' :: subColon rest := by
  simp [subColon, subColonF, h, subColonF_fuel rest.length rest le_rfl]

/-- Full match of `:\d+:\d+`: the first digit group is delimited by the second
colon; the second digit group greedily absorbs any digits that begin `s`. -/
theorem subColon_match (d1 d2 s : List Char)
    (hd1 : d1 ≠ []) (hd1d : ∀ c ∈ d1, c.isDigit)
    (hd2 : d2 ≠ []) (hd2d : ∀ c ∈ d2, c.isDigit) :
    subColon (':' :: (d1 ++ ':' :: (d2 ++ s))) =
      ':' :: 'X' :: ':' :: 'X' :: subColon (s.dropWhile Char.isDigit) := by
  have htake1 : (d1 ++ ':' :: (d2 ++ s)).takeWhile Char.isDigit = d1 := by
    rw [takeWhile_append_all _ _ _ hd1d]
    simp [List.takeWhile_cons]
  have hdrop1 : (d1 ++ ':' :: (d2 ++ s)).dropWhile Char.isDigit = ':' :: (d2 ++ s) := by
    rw [dropWhile_append_all _ _ _ hd1d]
    simp [List.dropWhile_cons]
  have htake2 : (d2 ++ s).takeWhile Char.isDigit = d2 ++ s.takeWhile Char.isDigit :=
    takeWhile_append_all _ _ _ hd2d
  have hdrop2 : (d2 ++ s).dropWhile Char.isDigit = s.dropWhile Char.isDigit :=
    dropWhile_append_all _ _ _ hd2d
  have hne1 : ¬(d1 ++ ':' :: (d2 ++ s)).takeWhile Char.isDigit = [] := by
    rw [htake1]; exact hd1
  have hne2 : ¬(d2 ++ s).takeWhile Char.isDigit = [] := by
    rw [htake2]; simp [hd2]
  have hlen : ((d2 ++ s).dropWhile Char.isDigit).length ≤
      (d1 ++ ':' :: (d2 ++ s)).length := by
    have := length_dropWhile_le Char.isDigit (d2 ++ s)
    rw [List.length_append] at this
    simp only [List.length_append, List.length_cons]
    omega
  have e1 : ¬((d1 ++ ':' :: (d2 ++ s)).takeWhile Char.isDigit).isEmpty = true := by
    rw [htake1]; cases d1 with
    | nil => exact absurd rfl hd1
    | cons a b => simp
  have e2 : ¬((d2 ++ s).takeWhile Char.isDigit).isEmpty = true := by
    rw [htake2]; cases d2 with
    | nil => exact absurd rfl hd2
    | cons a b => simp
  simp only [subColon, List.length_cons, subColonF, if_pos rfl, e1, if_false,
    Bool.false_eq_true, hdrop1, e2]
  rw [hdrop2] at hlen ⊢
  rw [subColonF_fuel _ _ hlen]
  simp

theorem matchMs_none_of_ne (c : Char) (rest : List Char) (hc : c ≠ 'a') :
    matchMs (c :: rest) = none := by
  unfold matchMs
  split
  · next h =>
    injection h with h1 _
    exact absurd h1 hc
  · rfl

theorem matchMs_some (l r2 : List Char) (h : matchMs l = some r2) :
    ∃ d, d ≠ [] ∧ (∀ c ∈ d, c.isDigit) ∧
      l = 'a' :: 't' :: ' ' :: (d ++ 'm' :: 's' :: r2) := by
  unfold matchMs at h
  split at h
  · next rest =>
    split at h
    · exact absurd h (by simp)
    · next x d' r2' htake hdrop =>
      simp only [Option.some.injEq] at h
      subst h
      refine ⟨x :: d', by simp, ?_, ?_⟩
      · intro c hc
        exact List.mem_takeWhile_imp (p := Char.isDigit) (l := rest)
          (by rw [htake]; exact hc)
      · have := List.takeWhile_append_dropWhile (p := Char.isDigit) (l := rest)
        rw [htake, hdrop] at this
        rw [← this]
    · exact absurd h (by simp)
  · exact absurd h (by simp)

theorem subMsF_fuel :
    ∀ (fuel : Nat) (l : List Char), l.length ≤ fuel →
      subMsF fuel l = subMsF l.length l := by
  intro fuel
  induction fuel using Nat.strong_induction_on with
  | _ fuel ih =>
    intro l hl
    match fuel, l with
    | 0, l =>
      have : l = [] := List.eq_nil_of_length_eq_zero (Nat.le_zero.mp hl)
      subst this; rfl
    | _ + 1, [] => rfl
    | fuel + 1, c :: rest =>
      simp only [List.length_cons, Nat.add_le_add_iff_right] at hl
      cases hm : matchMs (c :: rest) with
      | none =>
        have h1 := ih fuel (Nat.lt_succ_self _) rest hl
        have h2 := ih rest.length (Nat.lt_succ_of_le hl) rest le_rfl
        simp [subMsF, hm, h1, h2]
      | some r2 =>
        obtain ⟨d, _, _, hshape⟩ := matchMs_some _ _ hm
        have hr2 : r2.length ≤ rest.length := by
          have : (c :: rest).length = ('a' :: 't' :: ' ' :: (d ++ 'm' :: 's' :: r2)).length := by
            rw [hshape]
          simp [List.length_append] at this
          omega
        have h1 := ih fuel (Nat.lt_succ_self _) r2 (hr2.trans hl)
        have h2 := ih rest.length (Nat.lt_succ_of_le hl) r2 hr2
        simp [subMsF, hm, h1, h2]

theorem subMs_nil : subMs [] = [] := rfl

theorem subMs_nomatch (c : Char) (rest : List Char)
    (hm : matchMs (c :: rest) = none) :
    subMs (c :: rest) = c :: subMs rest := by
  simp [subMs, subMsF, hm, subMsF_fuel rest.length rest le_rfl]

theorem subMs_match (c : Char) (rest r2 : List Char)
    (hm : matchMs (c :: rest) = some r2) :
    subMs (c :: rest) = 'a' :: 't' :: ' ' :: 'X' :: 'm' :: 's' :: subMs r2 := by
  obtain ⟨d, _, _, hshape⟩ := matchMs_some _ _ hm
  have hr2 : r2.length ≤ rest.length := by
    have : (c :: rest).length = ('a' :: 't' :: ' ' :: (d ++ 'm' :: 's' :: r2)).length := by
      rw [hshape]
    simp [List.length_append] at this
    omega
  simp [subMs, subMsF, hm, subMsF_fuel rest.length r2 hr2]

/-! ### Step lemmas for the digit-run scanner -/

theorem subDigitsAux_cons_nodigit (b : Bool) (c : Char) (s : List Char)
    (hc : ¬c.isDigit) :
    subDigitsAux b (c :: s) = c :: subDigitsAux false s := by
  simp [subDigitsAux, hc]

theorem subDigitsAux_true_digits (d s : List Char) (hd : ∀ c ∈ d, c.isDigit) :
    subDigitsAux true (d ++ s) = subDigitsAux true s := by
  induction d with
  | nil => rfl
  | cons c d ih =>
    have hc : c.isDigit := hd c (by simp)
    simp only [List.cons_append, subDigitsAux, hc, if_pos]
    exact ih fun x hx => hd x (by simp [hx])

theorem subDigitsAux_false_digits (d s : List Char) (hne : d ≠ [])
    (hd : ∀ c ∈ d, c.isDigit) :
    subDigitsAux false (d ++ s) = 'N' :: subDigitsAux true s := by
  cases d with
  | nil => exact absurd rfl hne
  | cons c d =>
    have hc : c.isDigit := hd c (by simp)
    have hstep : subDigitsAux false (c :: (d ++ s)) = 'N' :: subDigitsAux true (d ++ s) := by
      simp [subDigitsAux, hc]
    rw [List.cons_append, hstep,
      subDigitsAux_true_digits d s fun x hx => hd x (by simp [hx])]

/-! ### Lemmas for the greedy path-root match -/

theorem lastRootGo_isSome (l : List Char) (b : Option (List Char))
    (hb : b.isSome) : (lastRootGo l b).isSome := by
  induction l generalizing b with
  | nil => exact hb
  | cons c rest ih =>
    simp only [lastRootGo]
    cases hra : rootAfter (c :: rest) with
    | none =>
      by_cases hc : c = '\n' <;> simp [hc, hb, ih b hb]
    | some x =>
      by_cases hc : c = '\n' <;> simp [hc, ih (some x) rfl]

theorem lastRootGo_first_some (c : Char) (rest : List Char)
    (x : List Char) (hra : rootAfter (c :: rest) = some x)
    (b b' : Option (List Char)) :
    lastRootGo (c :: rest) b = lastRootGo (c :: rest) b' := by
  simp [lastRootGo, hra]

theorem lastRootGo_append (pre B : List Char) (hpre : '\n' ∉ pre)
    (x : List Char) (hB : rootAfter B = some x) (b : Option (List Char)) :
    lastRootGo (pre ++ B) b = lastRootGo B none := by
  induction pre generalizing b with
  | nil =>
    simp only [List.nil_append]
    cases B with
    | nil => simp [rootAfter, List.isPrefixOf] at hB
    | cons c rest => exact lastRootGo_first_some c rest x hB b none
  | cons c pre ih =>
    have hc : c ≠ '\n' := fun h => hpre (by simp [h])
    simp only [List.cons_append, lastRootGo, hc, if_neg, not_false_iff]
    exact ih (fun h => hpre (by simp [h])) _

theorem lastRootGo_none_id (l : List Char) (h : lastRootGo l none = none) :
    ∀ b, lastRootGo l b = b := by
  induction l with
  | nil => intro b; rfl
  | cons c rest ih =>
    intro b
    cases hra : rootAfter (c :: rest) with
    | some x =>
      by_cases hc : c = '\n'
      · subst hc
        simp only [lastRootGo, hra, if_pos rfl] at h
        exact absurd h (by simp)
      · simp only [lastRootGo, hra, hc, if_neg, not_false_iff] at h
        have := lastRootGo_isSome rest (some x) rfl
        rw [h] at this
        simp at this
    | none =>
      by_cases hc : c = '\n'
      · subst hc
        simp [lastRootGo, hra]
      · simp only [lastRootGo, hra, hc, if_neg, not_false_iff] at h ⊢
        exact ih h b

/-- The three source-root segments recognised by `normalize_error_log`. -/
def rootSegs : List (List Char) :=
  [['s', 'r', 'c'], ['l', 'i', 'b'], ['a', 'p', 'p']]

theorem rootAfter_seg (r rest : List Char) (hr : r ∈ rootSegs) :
    rootAfter ('/' :: (r ++ '/' :: rest)) = some rest := by
  simp only [rootSegs, List.mem_cons, List.not_mem_nil, or_false] at hr
  rcases hr with h | h | h <;> subst h <;>
    simp [rootAfter, List.isPrefixOf, List.drop]

theorem stripRoot_of_none (l : List Char) (h : lastRoot l = none) :
    stripRoot l = l := by
  simp [stripRoot, h]

/-- The greedy match of `^.*/(src|lib|app)/` ignores everything before a
newline-free prefix: the replacement result is determined by the part of the
path from the first root segment onward. -/
theorem stripRoot_append (pre r rest : List Char) (hr : r ∈ rootSegs)
    (hpre : '\n' ∉ pre) :
    stripRoot (pre ++ '/' :: (r ++ '/' :: rest)) =
      (lastRootGo ('/' :: (r ++ '/' :: rest)) none).getD [] := by
  have hB := rootAfter_seg r rest hr
  have h1 : lastRoot (pre ++ '/' :: (r ++ '/' :: rest)) =
      lastRootGo ('/' :: (r ++ '/' :: rest)) none :=
    lastRootGo_append pre _ hpre rest hB none
  have hsome : (lastRootGo ('/' :: (r ++ '/' :: rest)) none).isSome := by
    simp only [lastRootGo, hB]
    have : ('/' : Char) ≠ '\n' := by decide
    simp only [this, if_neg, not_false_iff]
    exact lastRootGo_isSome _ (some rest) rfl
  rw [stripRoot, h1]
  obtain ⟨y, hy⟩ := Option.isSome_iff_exists.mp hsome
  simp [hy]

/-- When no further root segment occurs after the first one, the greedy match
consumes exactly through the first segment. -/
theorem stripRoot_exact (pre r rest : List Char) (hr : r ∈ rootSegs)
    (hpre : '\n' ∉ pre) (hrest : lastRootGo (r ++ '/' :: rest) none = none) :
    stripRoot (pre ++ '/' :: (r ++ '/' :: rest)) = rest := by
  rw [stripRoot_append pre r rest hr hpre]
  have hB := rootAfter_seg r rest hr
  simp only [lastRootGo, hB]
  have hslash : ('/' : Char) ≠ '\n' := by decide
  simp only [hslash, if_neg, not_false_iff]
  rw [lastRootGo_none_id _ hrest (some rest)]
  rfl

/-! ## UTF-8 and SHA-256 (`fingerprint.encode()` and `hashlib.sha256`) -/

/-- UTF-8 encoding of a single character (Python `str.encode()`). -/
def utf8Char (c : Char) : List Nat :=
  let n := c.toNat
  if n < 0x80 then [n]
  else if n < 0x800 then [0xC0 + n / 0x40, 0x80 + n % 0x40]
  else if n < 0x10000 then
    [0xE0 + n / 0x1000, 0x80 + (n / 0x40) % 0x40, 0x80 + n % 0x40]
  else
    [0xF0 + n / 0x40000, 0x80 + (n / 0x1000) % 0x40, 0x80 + (n / 0x40) % 0x40,
      0x80 + n % 0x40]

/-- UTF-8 bytes of a string. -/
def utf8 (s : String) : List Nat := (s.toList.map utf8Char).foldr (· ++ ·) []

/-- 32-bit right rotation, on `Nat` values below `2^32`. -/
def rotr (k x : Nat) : Nat := x / 2 ^ k + x % 2 ^ k * 2 ^ (32 - k)

/-- 32-bit complement. -/
def not32 (x : Nat) : Nat := Nat.xor x 4294967295

def bigS0 (x : Nat) : Nat := Nat.xor (rotr 2 x) (Nat.xor (rotr 13 x) (rotr 22 x))
def bigS1 (x : Nat) : Nat := Nat.xor (rotr 6 x) (Nat.xor (rotr 11 x) (rotr 25 x))
def smallS0 (x : Nat) : Nat := Nat.xor (rotr 7 x) (Nat.xor (rotr 18 x) (x / 8))
def smallS1 (x : Nat) : Nat := Nat.xor (rotr 17 x) (Nat.xor (rotr 19 x) (x / 1024))
def chF (e f g : Nat) : Nat := Nat.xor (Nat.land e f) (Nat.land (not32 e) g)
def majF (a b c : Nat) : Nat :=
  Nat.xor (Nat.land a b) (Nat.xor (Nat.land a c) (Nat.land b c))

/-- The SHA-256 round constants. -/
def sha256K : List Nat :=
  [1116352408, 1899447441, 3049323471, 3921009573, 961987163,
   1508970993, 2453635748, 2870763221, 3624381080, 310598401,
   607225278, 1426881987, 1925078388, 2162078206, 2614888103,
   3248222580, 3835390401, 4022224774, 264347078, 604807628,
   770255983, 1249150122, 1555081692, 1996064986, 2554220882,
   2821834349, 2952996808, 3210313671, 3336571891, 3584528711,
   113926993, 338241895, 666307205, 773529912, 1294757372,
   1396182291, 1695183700, 1986661051, 2177026350, 2456956037,
   2730485921, 2820302411, 3259730800, 3345764771, 3516065817,
   3600352804, 4094571909, 275423344, 430227734, 506948616,
   659060556, 883997877, 958139571, 1322822218, 1537002063,
   1747873779, 1955562222, 2024104815, 2227730452, 2361852424,
   2428436474, 2756734187, 3204031479, 3329325298]

/-- Big-endian 8-byte encoding of the bit length. -/
def be64 (n : Nat) : List Nat :=
  [n / 2 ^ 56 % 256, n / 2 ^ 48 % 256, n / 2 ^ 40 % 256, n / 2 ^ 32 % 256,
   n / 2 ^ 24 % 256, n / 2 ^ 16 % 256, n / 2 ^ 8 % 256, n % 256]

/-- SHA-256 message padding. -/
def padMsg (msg : List Nat) : List Nat :=
  let len := msg.length
  let zeros := (64 - (len + 9) % 64) % 64
  msg ++ 0x80 :: List.replicate zeros 0 ++ be64 (8 * len)

/-- Big-endian 32-bit words from a byte list. -/
def toWords : List Nat → List Nat
  | b0 :: b1 :: b2 :: b3 :: rest =>
    (((b0 * 256 + b1) * 256 + b2) * 256 + b3) :: toWords rest
  | _ => []

/-- Split a word list into blocks of 16. -/
def toBlocks16 : List Nat → List (List Nat)
  | w0 :: w1 :: w2 :: w3 :: w4 :: w5 :: w6 :: w7 :: w8 :: w9 :: w10 :: w11 ::
      w12 :: w13 :: w14 :: w15 :: rest =>
    [w0, w1, w2, w3, w4, w5, w6, w7, w8, w9, w10, w11, w12, w13, w14, w15] ::
      toBlocks16 rest
  | _ => []

/-- Extend the 16 block words to the 64-word message schedule. -/
def schedExtend : Nat → List Nat → List Nat
  | 0, acc => acc
  | n + 1, acc =>
    let i := acc.length
    let w := (smallS1 (acc.getD (i - 2) 0) + acc.getD (i - 7) 0 +
      smallS0 (acc.getD (i - 15) 0) + acc.getD (i - 16) 0) % 4294967296
    schedExtend n (acc ++ [w])

/-- One SHA-256 compression round. -/
def sha256Round (st : Nat × Nat × Nat × Nat × Nat × Nat × Nat × Nat)
    (kw : Nat × Nat) : Nat × Nat × Nat × Nat × Nat × Nat × Nat × Nat :=
  let (a, b, c, d, e, f, g, h) := st
  let t1 := (h + bigS1 e + chF e f g + kw.1 + kw.2) % 4294967296
  let t2 := (bigS0 a + majF a b c) % 4294967296
  ((t1 + t2) % 4294967296, a, b, c, (d + t1) % 4294967296, e, f, g)

/-- Compress one 16-word block into the running hash state. -/
def sha256Compress (st : Nat × Nat × Nat × Nat × Nat × Nat × Nat × Nat)
    (block : List Nat) : Nat × Nat × Nat × Nat × Nat × Nat × Nat × Nat :=
  let w := schedExtend 48 block
  let (a, b, c, d, e, f, g, h) := (sha256K.zip w).foldl sha256Round st
  let (a0, b0, c0, d0, e0, f0, g0, h0) := st
  ((a0 + a) % 4294967296, (b0 + b) % 4294967296, (c0 + c) % 4294967296,
   (d0 + d) % 4294967296, (e0 + e) % 4294967296, (f0 + f) % 4294967296,
   (g0 + g) % 4294967296, (h0 + h) % 4294967296)

def hexDigit (n : Nat) : Char :=
  if n < 10 then Char.ofNat (48 + n) else Char.ofNat (87 + n)

/-- Lowercase hexadecimal rendering of a 32-bit word. -/
def hex8 (w : Nat) : List Char :=
  [hexDigit (w / 16 ^ 7 % 16), hexDigit (w / 16 ^ 6 % 16),
   hexDigit (w / 16 ^ 5 % 16), hexDigit (w / 16 ^ 4 % 16),
   hexDigit (w / 16 ^ 3 % 16), hexDigit (w / 16 ^ 2 % 16),
   hexDigit (w / 16 % 16), hexDigit (w % 16)]

/-- SHA-256 digest of a byte list, as a lowercase hex string. -/
def sha256Bytes (msg : List Nat) : String :=
  let blocks := toBlocks16 (toWords (padMsg msg))
  let (a, b, c, d, e, f, g, h) := blocks.foldl sha256Compress
    (1779033703, 3144134277, 1013904242, 2773480762,
     1359893119, 2600822924, 528734635, 1541459225)
  String.mk (hex8 a ++ hex8 b ++ hex8 c ++ hex8 d ++ hex8 e ++ hex8 f ++
    hex8 g ++ hex8 h)

/-- `hashlib.sha256(s.encode()).hexdigest()`. -/
def sha256Hex (s : String) : String := sha256Bytes (utf8 s)

/-! ## JSON serialization of the context (`json.dumps(..., sort_keys=True)`) -/

/-- Hex digit list of a scalar for `\uXXXX` escapes. -/
def hex4 (n : Nat) : List Char :=
  [hexDigit (n / 4096 % 16), hexDigit (n / 256 % 16), hexDigit (n / 16 % 16),
   hexDigit (n % 16)]

/-- JSON escaping of one character, following `json.dumps` defaults
(`ensure_ascii=True`). -/
def jsonEscChar (c : Char) : List Char :=
  if c = '"' then ['\\', '"']
  else if c = '\\' then ['\\', '\\']
  else if c = '\n' then ['\\', 'n']
  else if c = '\t' then ['\\', 't']
  else if c = '\r' then ['\\', 'r']
  else if c.toNat = 8 then ['\\', 'b']
  else if c.toNat = 12 then ['\\', 'f']
  else if c.toNat < 0x20 then '\\' :: 'u' :: hex4 c.toNat
  else if c.toNat < 0x7f then [c]
  else if c.toNat < 0x10000 then '\\' :: 'u' :: hex4 c.toNat
  else
    '\\' :: 'u' :: hex4 (0xd800 + (c.toNat - 0x10000) / 0x400) ++
      '\\' :: 'u' :: hex4 (0xdc00 + (c.toNat - 0x10000) % 0x400)

/-- JSON string literal. -/
def jsonStr (s : String) : String :=
  String.mk ('"' :: (s.toList.map jsonEscChar).foldr (· ++ ·) ['"'])

/-- Code-point lexicographic comparison of strings (Python `str` ordering). -/
def lexLt : List Char → List Char → Bool
  | [], [] => false
  | [], _ :: _ => true
  | _ :: _, [] => false
  | c :: s, d :: t => if c.toNat < d.toNat then true
    else if d.toNat < c.toNat then false else lexLt s t

/-- Insert into a key-sorted association list (used for `sort_keys=True`). -/
def insertByKey (p : String × String) : List (String × String) → List (String × String)
  | [] => [p]
  | q :: rest => if lexLt p.1.toList q.1.toList then p :: q :: rest
    else q :: insertByKey p rest

/-- Sort an association list by key. -/
def sortByKeyLex (l : List (String × String)) : List (String × String) :=
  l.foldl (fun acc p => insertByKey p acc) []

/-- `json.dumps(context, sort_keys=True)` for a string-valued mapping. -/
def jsonDumps (ctx : List (String × String)) : String :=
  let items := (sortByKeyLex ctx).map fun p => jsonStr p.1 ++ ": " ++ jsonStr p.2
  "\x7b" ++ String.intercalate ", " items ++ "\x7d"

/-! ## Data model (types.py) -/

/-- `ErrorLog` from types.py.  The structured context is modelled as a
string-valued mapping (an insertion-ordered dict). -/
structure ErrorLog where
  message : String
  code : Option String := none
  file_path : Option String := none
  line_number : Option Nat := none
  stack_trace : Option String := none
  context : Option (List (String × String)) := none
deriving DecidableEq

/-- `ErrorLogEvent` from types.py. -/
structure ErrorLogEvent where
  event_id : String
  timestamp : Nat
  error_log : ErrorLog
  repository_url : Option String := none
  webhook_config_id : Option Nat := none
deriving DecidableEq

/-- `NormalizedErrorLog` from types.py. -/
structure NormalizedErrorLog where
  error_hash : String
  error_message : String
  error_code : Option String
  file_path : Option String
  line_number : Option Nat
  stack_trace : Option String
  context : Option String
deriving DecidableEq

/-- `AnalysisResult` from types.py. -/
structure AnalysisResult where
  error_hash : String
  analysis : String
  root_cause : Option String := none
  suggested_fix : Option String := none
  confidence_score : Nat := 75
  analyzed_at : Nat := 0
  ttl : Nat := 86400
  expires_at : Nat := 0
deriving DecidableEq

/-- `ProcessingOptions` from types.py. -/
structure ProcessingOptions where
  cache_ttl : Nat := 86400
  skip_cache : Bool := false
  skip_webhook : Bool := false
deriving DecidableEq

/-! ## hashing.py -/

/-- Message normalization: single-quoted literals, then double-quoted
literals, then digit runs. -/
def normMessage (s : String) : String :=
  (subDigits (subQuote '"' (subQuote '\'' s.toList))).asString

/-- Stack-trace normalization: `:\d+:\d+` then `at \d+ms`. -/
def normStack (s : String) : String := (subMs (subColon s.toList)).asString

/-- Path normalization: backslash replacement, then the greedy root-segment
strip. -/
def normPath (p : String) : String := (stripRoot (replaceBS p.toList)).asString

/-- `normalize_error_log` from hashing.py.  An empty string or empty dict is
falsy in Python, so those fields pass through the `if` guards unchanged. -/
def normalize_error_log (e : ErrorLog) : NormalizedErrorLog where
  error_hash := ""
  error_message := normMessage e.message
  error_code := e.code
  file_path :=
    match e.file_path with
    | some p => if p = "" then some p else some (normPath p)
    | none => none
  line_number := e.line_number
  stack_trace :=
    match e.stack_trace with
    | some s => if s = "" then some s else some (normStack s)
    | none => none
  context :=
    match e.context with
    | some ctx => if ctx = [] then none else some (jsonDumps ctx)
    | none => none

/-- `generate_error_hash` from hashing.py: SHA-256 of the `|`-joined
normalized components.  Context and line number are not among the parts. -/
def generate_error_hash (n : NormalizedErrorLog) : String :=
  sha256Hex (String.intercalate "|"
    [n.error_message, n.error_code.getD "", n.file_path.getD "",
     n.stack_trace.getD ""])

/-- `hash_error_log` from hashing.py. -/
def hash_error_log (e : ErrorLog) : String × NormalizedErrorLog :=
  let normalized := normalize_error_log e
  let h := generate_error_hash normalized
  (h, { normalized with error_hash := h })

/-! ## cache.py -/

/-- Insertion-ordered dict update: an existing key keeps its position, a new
key is appended. -/
def dictSet (k : String) (v : α) (l : List (String × α)) : List (String × α) :=
  if l.any (fun p => p.1 = k) then
    l.map fun p => if p.1 = k then (k, v) else p
  else l ++ [(k, v)]

/-- Dict deletion (no error if absent). -/
def dictDel (k : String) (l : List (String × α)) : List (String × α) :=
  l.filter fun p => p.1 ≠ k

/-- The `InMemoryCache` state: entry dict (`key -> (value, expires_at)`),
configuration and counters. -/
structure CacheState where
  cache : List (String × (AnalysisResult × Nat)) := []
  max_size : Nat := 1000
  eviction_policy : String := "LRU"
  access_order : List (String × Nat) := []
  hits : Nat := 0
  misses : Nat := 0
  writes : Nat := 0
deriving DecidableEq

/-- `InMemoryCache.__init__`: `max_size` is clamped to at least 1. -/
def cacheInit (max_size : Nat) (eviction_policy : String) : CacheState where
  cache := []
  max_size := max 1 max_size
  eviction_policy := eviction_policy
  access_order := []
  hits := 0
  misses := 0
  writes := 0

/-- `InMemoryCache.get`, with `time.time()` passed explicitly as `now`. -/
def cacheGet (now : Nat) (key : String) (c : CacheState) :
    Option AnalysisResult × CacheState :=
  match c.cache.lookup key with
  | none => (none, { c with misses := c.misses + 1 })
  | some (result, expires_at) =>
    if now > expires_at then
      (none, { c with
        cache := dictDel key c.cache
        access_order := dictDel key c.access_order
        misses := c.misses + 1 })
    else
      (some result, { c with
        access_order := dictSet key now c.access_order
        hits := c.hits + 1 })

/-- Stable insertion into a list sorted by `key`, placing the new element
after existing elements with an equal key (as Python's stable `sorted`). -/
def insSortedBy (key : α → Nat) (x : α) : List α → List α
  | [] => [x]
  | y :: ys => if key x < key y then x :: y :: ys else y :: insSortedBy key x ys

/-- Stable sort by a numeric key (extensionally Python's `sorted(l, key=...)`). -/
def sortByNum (key : α → Nat) (l : List α) : List α :=
  l.foldl (fun acc x => insSortedBy key x acc) []

/-- Delete a list of keys from both dicts of the cache. -/
def deleteKeys (ks : List String) (c : CacheState) : CacheState :=
  ks.foldl (fun c k => { c with
    cache := dictDel k c.cache
    access_order := dictDel k c.access_order }) c

/-- `InMemoryCache._evict_if_needed`. -/
def evictIfNeeded (c : CacheState) : CacheState :=
  if c.cache.length ≤ c.max_size then c
  else
    let to_evict := c.cache.length - c.max_size
    if c.eviction_policy = "LRU" then
      let sorted_keys := sortByNum
        (fun k => (c.access_order.lookup k).getD 0) (c.cache.map (·.1))
      deleteKeys (sorted_keys.take to_evict) c
    else
      deleteKeys ((c.cache.map (·.1)).take to_evict) c

/-- `InMemoryCache.set`. -/
def cacheSet (now : Nat) (key : String) (value : AnalysisResult) (ttl : Nat)
    (c : CacheState) : CacheState :=
  evictIfNeeded { c with
    cache := dictSet key (value, now + ttl) c.cache
    access_order := dictSet key now c.access_order
    writes := c.writes + 1 }

/-- `InMemoryCache.delete`. -/
def cacheDelete (key : String) (c : CacheState) : CacheState :=
  { c with cache := dictDel key c.cache, access_order := dictDel key c.access_order }

/-- `InMemoryCache.clear_expired`.  The Python function has no `return`
statement, so its value is `None`; the second component records that value. -/
def clear_expired (now : Nat) (c : CacheState) : CacheState × Option Nat :=
  let expired_keys := (c.cache.filter fun p => now > p.2.2).map (·.1)
  (deleteKeys expired_keys c, none)

/-! ## engine.py -/

/-- Python whitespace for `str.strip()`. -/
def pySpace (c : Char) : Bool :=
  c = ' ' || c = '\t' || c = '\n' || c = '\r' || c.toNat = 11 || c.toNat = 12

/-- `str.strip()`. -/
def pyStrip (s : String) : String :=
  (((s.toList.dropWhile pySpace).reverse.dropWhile pySpace).reverse).asString

/-- `a or b` for strings where `None` and `''` are falsy. -/
def pyOrStr (a : Option String) (b : String) : String :=
  match a with
  | some s => if s = "" then b else s
  | none => b

/-- The candidate context keys probed by `_extract_repository_ref`. -/
def candidateKeys : List String :=
  ["git.commit.sha", "git.commit", "git.sha", "git.revision",
   "vcs.ref.head.revision", "vcs.revision", "vcs.revision.id",
   "revision", "commit"]

def isHexChar (c : Char) : Bool :=
  c.isDigit || (97 ≤ c.toNat && c.toNat ≤ 102) || (65 ≤ c.toNat && c.toNat ≤ 70)

/-- `re.fullmatch(r'(?i)[0-9a-f]{7,40}', s)`. -/
def isHexRef (s : String) : Bool :=
  let l := s.toList
  decide (7 ≤ l.length) && decide (l.length ≤ 40) && l.all isHexChar

/-- The key loop of `_extract_repository_ref`: skip falsy values, return the
first stripped value that fullmatches the hex pattern. -/
def extractRefGo (d : List (String × String)) : List String → Option String
  | [] => none
  | k :: rest =>
    match d.lookup k with
    | some v =>
      if v = "" then extractRefGo d rest
      else if isHexRef (pyStrip v) then some (pyStrip v)
      else extractRefGo d rest
    | none => extractRefGo d rest

/-- `ErrorAnalysisEngine._extract_repository_ref`. -/
def extractRepositoryRef (ctx : Option (List (String × String))) : Option String :=
  match ctx with
  | none => none
  | some d => extractRefGo d candidateKeys

/-- The state of one shared `Future`: unresolved, resolved with a value, or
resolved with an exception. -/
inductive FutureState where
  | pending
  | resolved (r : AnalysisResult)
  | failed (e : String)
deriving DecidableEq

/-- The engine's mutable state: its cache, the in-flight ticket table
(`key -> future id`) and the table of future states.  Futures are named by
ids from a counter so that the `current is future` identity test of
`_clear_inflight` is expressible. -/
structure EngineState where
  cache : CacheState := {}
  inflight : List (String × Nat) := []
  futures : List (Nat × FutureState) := []
  nextFutureId : Nat := 0
deriving DecidableEq

/-- The engine's collaborators and clock: the default repository URL from the
environment, `time.time()`, `_build_repository_context` (an abstract total
collaborator) and the LLM provider's `analyze_error` (which may raise). -/
structure EngineEnv where
  defaultRepoUrl : Option String := none
  now : Nat := 0
  buildCtx : ErrorLogEvent → Option String := fun _ => none
  analyze : String → ErrorLog → Option String → Except String AnalysisResult

/-- The outcome of one `process_error_log` call: a returned result, a raised
exception, or blocking forever on an unresolved future. -/
inductive ProcOutcome where
  | ok (r : AnalysisResult)
  | raised (e : String)
  | blocked
deriving DecidableEq

/-- `Future.result()`. -/
def waitOutcome : FutureState → ProcOutcome
  | .pending => .blocked
  | .resolved r => .ok r
  | .failed e => .raised e

/-- `ErrorAnalysisEngine._get_or_create_inflight`: the atomic check-and-create
under the table-wide lock. -/
def get_or_create_inflight (key : String) (st : EngineState) :
    (Nat × Bool) × EngineState :=
  match st.inflight.lookup key with
  | some fid => ((fid, false), st)
  | none =>
    let fid := st.nextFutureId
    ((fid, true),
     { st with
        inflight := (key, fid) :: st.inflight
        futures := (fid, .pending) :: st.futures
        nextFutureId := fid + 1 })

/-- `ErrorAnalysisEngine._clear_inflight`: delete only if the table still
holds this exact future. -/
def clear_inflight (key : String) (fid : Nat) (st : EngineState) : EngineState :=
  match st.inflight.lookup key with
  | some cur => if cur = fid then { st with inflight := dictDel key st.inflight } else st
  | none => st

/-- `Future.set_result` / `set_exception`: update the future's state. -/
def futSet (fid : Nat) (v : FutureState) (l : List (Nat × FutureState)) :
    List (Nat × FutureState) :=
  l.map fun p => if p.1 = fid then (fid, v) else p

/-- The cache key computed by `process_error_log` (fingerprint plus optional
repository/revision scope). -/
def cacheKeyOf (env : EngineEnv) (ev : ErrorLogEvent) : String :=
  let error_hash := (hash_error_log ev.error_log).1
  let repo_url := pyStrip (pyOrStr ev.repository_url (pyOrStr env.defaultRepoUrl ""))
  let repo_ref := extractRepositoryRef ev.error_log.context
  if repo_url = "" then "analysis:" ++ error_hash
  else "analysis:" ++ repo_url ++ ":" ++ pyOrStr repo_ref "default" ++ ":" ++ error_hash

/-- The tail of `process_error_log` from the `_get_or_create_inflight` call
on: a non-owner waits on the shared future; the owner builds the enrichment
context, calls the analyzer, caches on success (unless `skip_cache`), resolves
the future, and always releases the ticket. -/
def process_after_cache (env : EngineEnv) (ev : ErrorLogEvent)
    (opts : ProcessingOptions) (key : String) (st : EngineState) :
    ProcOutcome × EngineState × Nat :=
  match get_or_create_inflight key st with
  | ((fid, false), st1) =>
    (waitOutcome ((st1.futures.lookup fid).getD .pending), st1, 0)
  | ((fid, true), st1) =>
    match env.analyze (hash_error_log ev.error_log).1 ev.error_log
        (env.buildCtx ev) with
    | .ok result =>
      let st2 :=
        if opts.skip_cache then st1
        else { st1 with cache := cacheSet env.now key result opts.cache_ttl st1.cache }
      let st3 := { st2 with futures := futSet fid (.resolved result) st2.futures }
      (.ok result, clear_inflight key fid st3, 1)
    | .error e =>
      let st3 := { st1 with futures := futSet fid (.failed e) st1.futures }
      (.raised e, clear_inflight key fid st3, 1)

/-- `ErrorAnalysisEngine.process_error_log`, as a state transformer.  The
third component counts analyzer invocations made by this call. -/
def process_error_log (env : EngineEnv) (ev : ErrorLogEvent)
    (opts : ProcessingOptions) (st : EngineState) :
    ProcOutcome × EngineState × Nat :=
  let key := cacheKeyOf env ev
  if opts.skip_cache then process_after_cache env ev opts key st
  else
    match cacheGet env.now key st.cache with
    | (some cached, c') => (.ok cached, { st with cache := c' }, 0)
    | (none, c') => process_after_cache env ev opts key { st with cache := c' }

/-- `ErrorAnalysisEngine.process_error_batch`: each event processed
independently, a raised failure recorded as a `none` slot.  The overall value
is `none` only if some call blocks (which a sequential batch cannot unblock). -/
def process_error_batch (env : EngineEnv) (opts : ProcessingOptions) :
    List ErrorLogEvent → EngineState →
      Option (List (Option AnalysisResult) × EngineState)
  | [], st => some ([], st)
  | ev :: rest, st =>
    match process_error_log env ev opts st with
    | (.ok r, st', _) =>
      (process_error_batch env opts rest st').map fun p => (some r :: p.1, p.2)
    | (.raised _, st', _) =>
      (process_error_batch env opts rest st').map fun p => (none :: p.1, p.2)
    | (.blocked, _, _) => none

/-! ## Dictionary lemmas -/

theorem lookup_dictDel_self (k : String) (l : List (String × α)) :
    (dictDel k l).lookup k = none := by
  rw [List.lookup_eq_none_iff]
  intro p hp
  have h := (List.mem_filter.mp hp).2
  simp only [ne_eq, decide_not, Bool.not_eq_eq_eq_not, Bool.not_true,
    decide_eq_false_iff_not] at h
  simp [bne_iff_ne, Ne.symm h]

theorem foldl_dictDel_filter (ks : List String) (l : List (String × α)) :
    ks.foldl (fun l k => dictDel k l) l = l.filter fun p => decide (¬p.1 ∈ ks) := by
  induction ks generalizing l with
  | nil => simp
  | cons k ks ih =>
    have : (dictDel k l).filter (fun p => decide (¬p.1 ∈ ks)) =
        l.filter fun p => decide (¬p.1 ∈ k :: ks) := by
      rw [dictDel, List.filter_filter]
      refine List.filter_congr fun p _ => ?_
      by_cases h1 : p.1 = k <;> by_cases h2 : p.1 ∈ ks <;> simp [h1, h2]
    simpa [List.foldl_cons, ih (dictDel k l)] using this

theorem deleteKeys_spec (ks : List String) (c : CacheState) :
    deleteKeys ks c = { c with
      cache := c.cache.filter fun p => decide (¬p.1 ∈ ks)
      access_order := c.access_order.filter fun p => decide (¬p.1 ∈ ks) } := by
  have h : ∀ ks c, deleteKeys ks c = { c with
      cache := ks.foldl (fun l k => dictDel k l) c.cache
      access_order := ks.foldl (fun l k => dictDel k l) c.access_order } := by
    intro ks
    induction ks with
    | nil => intro c; rfl
    | cons k ks ih =>
      intro c
      simp only [deleteKeys] at ih ⊢
      simp only [List.foldl_cons]
      rw [ih]
  rw [h, foldl_dictDel_filter, foldl_dictDel_filter]

/-! ## C1: single-flight acquire -/

/-- C1: `acquire(key)` (i.e. `_get_or_create_inflight`) atomically creates and
returns a new owned ticket when none exists for the key, returns the existing
ticket with `isOwner = false` when one does, and therefore a second acquire
for the same key immediately after any acquire is never an owner — no two
concurrent callers for the same key can both be owner. -/
theorem c1_single_flight_acquire :
    (∀ (st : EngineState) (key : String),
      st.inflight.lookup key = none →
        (get_or_create_inflight key st).1.2 = true ∧
        (get_or_create_inflight key st).2.inflight.lookup key =
          some (get_or_create_inflight key st).1.1) ∧
    (∀ (st : EngineState) (key : String) (fid : Nat),
      st.inflight.lookup key = some fid →
        get_or_create_inflight key st = ((fid, false), st)) ∧
    (∀ (st : EngineState) (key : String),
      (get_or_create_inflight key
        (get_or_create_inflight key st).2).1.2 = false) := by
  refine ⟨?_, ?_, ?_⟩
  · intro st key h
    simp [get_or_create_inflight, h, List.lookup]
  · intro st key fid h
    simp [get_or_create_inflight, h]
  · intro st key
    cases h : st.inflight.lookup key with
    | some fid => simp [get_or_create_inflight, h]
    | none => simp [get_or_create_inflight, h, List.lookup]

/-- Witness for C1 at a concrete state. -/
theorem c1_single_flight_acquire_witness :
    (get_or_create_inflight "k" { cache := {} }).1.2 = true ∧
    (get_or_create_inflight "k" { cache := {} }).2.inflight.lookup "k" =
      some (get_or_create_inflight "k" { cache := {} }).1.1 :=
  c1_single_flight_acquire.1 { cache := {} } "k" rfl

/-! ## C2: ticket removed after the owner completes -/

theorem get_or_create_inflight_none {st : EngineState} {key : String}
    (h : st.inflight.lookup key = none) :
    get_or_create_inflight key st = ((st.nextFutureId, true),
      { st with
        inflight := (key, st.nextFutureId) :: st.inflight
        futures := (st.nextFutureId, .pending) :: st.futures
        nextFutureId := st.nextFutureId + 1 }) := by
  rw [get_or_create_inflight, h]

theorem get_or_create_inflight_some {st : EngineState} {key : String} {fid : Nat}
    (h : st.inflight.lookup key = some fid) :
    get_or_create_inflight key st = ((fid, false), st) := by
  rw [get_or_create_inflight, h]

/-- Any owner run (ticket absent on entry) ends with the ticket table free of
the key: the `finally` release always fires. -/
theorem process_after_cache_owner_lookup (env : EngineEnv) (ev : ErrorLogEvent)
    (opts : ProcessingOptions) (key : String) (st : EngineState)
    (h : st.inflight.lookup key = none) :
    (process_after_cache env ev opts key st).2.1.inflight.lookup key = none := by
  rw [process_after_cache, get_or_create_inflight_none h]
  have hclear : ∀ st3 : EngineState,
      st3.inflight = (key, st.nextFutureId) :: st.inflight →
      (clear_inflight key st.nextFutureId st3).inflight.lookup key = none := by
    intro st3 h3
    rw [clear_inflight, h3, List.lookup_cons_self]
    simp [h3, lookup_dictDel_self]
  cases ha : env.analyze (hash_error_log ev.error_log).1 ev.error_log
      (env.buildCtx ev) with
  | ok result =>
    cases hsc : opts.skip_cache <;>
      · simp only [ha, hsc, Bool.false_eq_true, if_false, if_true]
        exact hclear _ rfl
  | error e =>
    simp only [ha]
    exact hclear _ rfl

/-- C2: on every run in which the caller becomes owner (no existing ticket,
and no cache hit short-circuits the request), the final state's ticket table
has no entry for the key — whether the analyzer succeeded or raised — so a
subsequent acquire becomes a new owner; and `_clear_inflight` is a no-op when
the table's current ticket for the key is not the released one. -/
theorem c2_ticket_cleared :
    (∀ (env : EngineEnv) (ev : ErrorLogEvent) (opts : ProcessingOptions)
        (st : EngineState),
      st.inflight.lookup (cacheKeyOf env ev) = none →
      (opts.skip_cache = true ∨
        (cacheGet env.now (cacheKeyOf env ev) st.cache).1 = none) →
        (process_error_log env ev opts st).2.1.inflight.lookup
            (cacheKeyOf env ev) = none ∧
        (get_or_create_inflight (cacheKeyOf env ev)
            (process_error_log env ev opts st).2.1).1.2 = true) ∧
    (∀ (key : String) (fid : Nat) (st : EngineState),
      ¬st.inflight.lookup key = some fid → clear_inflight key fid st = st) := by
  constructor
  · intro env ev opts st hnone hmiss
    have hmain : (process_error_log env ev opts st).2.1.inflight.lookup
        (cacheKeyOf env ev) = none := by
      simp only [process_error_log]
      cases hsc : opts.skip_cache with
      | true =>
        simp only [if_true]
        exact process_after_cache_owner_lookup env ev opts _ st hnone
      | false =>
        rcases hmiss with h | h
        · rw [hsc] at h; cases h
        · simp only [Bool.false_eq_true, if_false]
          rcases hcg : cacheGet env.now (cacheKeyOf env ev) st.cache with ⟨o, c'⟩
          rw [hcg] at h
          simp only at h
          subst h
          exact process_after_cache_owner_lookup env ev opts _
            { st with cache := c' } hnone
    refine ⟨hmain, ?_⟩
    rw [get_or_create_inflight_none hmain]
  · intro key fid st h
    rw [clear_inflight]
    cases hcur : st.inflight.lookup key with
    | none => rfl
    | some cur =>
      have : ¬cur = fid := fun he => h (by rw [hcur, he])
      simp [this]

/-- A concrete environment whose analyzer always raises. -/
def c2Env : EngineEnv where
  analyze := fun _ _ _ => .error "boom"

/-- A concrete event for the C2 witness. -/
def c2Ev : ErrorLogEvent where
  event_id := "e"
  timestamp := 0
  error_log := { message := "m" }

/-- A concrete engine state holding a ticket for `"k"` with future id 3. -/
def c2Stale : EngineState where
  cache := {}
  inflight := [("k", 3)]

/-- Witness for C2: a concrete owner run whose analyzer raises still leaves
no ticket behind, and a stale release is a no-op. -/
theorem c2_ticket_cleared_witness :
    ((process_error_log c2Env c2Ev {} { cache := {} }).2.1.inflight.lookup
        (cacheKeyOf c2Env c2Ev) = none) ∧
    clear_inflight "k" 7 c2Stale = c2Stale :=
  ⟨(c2_ticket_cleared.1 c2Env c2Ev {} { cache := {} } rfl (Or.inr rfl)).1,
   c2_ticket_cleared.2 "k" 7 c2Stale (by decide)⟩

/-! ## C10: context and line number do not affect the fingerprint -/

/-- C10: records that agree on message, code, file path and stack trace hash
identically, whatever their context and line number; the context is
serialized (sorted-key JSON) into the normalized record and the line number is
carried through, but neither is part of the hashed fingerprint string. -/
theorem c10_context_line_not_hashed :
    (∀ e1 e2 : ErrorLog, e1.message = e2.message → e1.code = e2.code →
      e1.file_path = e2.file_path → e1.stack_trace = e2.stack_trace →
      (hash_error_log e1).1 = (hash_error_log e2).1) ∧
    (∀ (e : ErrorLog) (ctx : List (String × String)), e.context = some ctx →
      ctx ≠ [] → (normalize_error_log e).context = some (jsonDumps ctx)) ∧
    (∀ e : ErrorLog, (normalize_error_log e).line_number = e.line_number) := by
  refine ⟨?_, ?_, ?_⟩
  · intro e1 e2 hm hc hf hs
    simp [hash_error_log, generate_error_hash, normalize_error_log, hm, hc, hf, hs]
  · intro e ctx hctx hne
    simp [normalize_error_log, hctx, hne]
  · intro e; rfl

/-- A concrete record for the C10 witness (line 3, context `{"a": "1"}`). -/
def c10RecA : ErrorLog where
  message := "m"
  code := some "C"
  line_number := some 3
  context := some [("a", "1")]

/-- A concrete record for the C10 witness (line 9, context `{"b": "2"}`). -/
def c10RecB : ErrorLog where
  message := "m"
  code := some "C"
  line_number := some 9
  context := some [("b", "2")]

/-- Witness for C10: concrete records differing only in line number and
context have equal hashes. -/
theorem c10_context_line_not_hashed_witness :
    (hash_error_log c10RecA).1 = (hash_error_log c10RecB).1 :=
  c10_context_line_not_hashed.1 _ _ rfl rfl rfl rfl

/-! ## C7: the expiry sweep -/

/-- A one-entry cache whose entry expired at time 5. -/
def c7Cache : CacheState where
  cache := [("k", ({ error_hash := "h", analysis := "a" }, 5))]
  access_order := [("k", 1)]

/-- C7 counterexample: at time 10, `clear_expired` removes the (single)
expired entry but returns `None`, not the number of entries removed, refuting
"returns the number of entries it removed". -/
theorem c7_sweep_counterexample :
    (clear_expired 10 c7Cache).1.cache = [] ∧
    (clear_expired 10 c7Cache).2 = none ∧
    ¬(clear_expired 10 c7Cache).2 = some 1 := by
  refine ⟨?_, rfl, by decide⟩
  rfl

/-- C7 (amended): the sweep removes exactly the entries whose expiry time has
passed, independent of access order and counters, but returns `None` (the
count is only printed), not the number removed. -/
theorem c7_sweep_amended (now : Nat) (c : CacheState)
    (hnd : (c.cache.map (·.1)).Nodup) :
    (clear_expired now c).1.cache = (c.cache.filter fun p => decide (¬now > p.2.2)) ∧
    (clear_expired now c).1.hits = c.hits ∧
    (clear_expired now c).1.misses = c.misses ∧
    (clear_expired now c).1.writes = c.writes ∧
    (clear_expired now c).1.max_size = c.max_size ∧
    (clear_expired now c).1.eviction_policy = c.eviction_policy ∧
    (clear_expired now c).2 = none := by
  have hcache : (clear_expired now c).1.cache =
      (c.cache.filter fun p => decide (¬now > p.2.2)) := by
    rw [clear_expired]
    simp only [deleteKeys_spec]
    refine List.filter_congr fun p hp => ?_
    by_cases hexp : now > p.2.2
    · have hmem : p.1 ∈ (c.cache.filter fun p => decide (now > p.2.2)).map (·.1) :=
        List.mem_map_of_mem _ (List.mem_filter.mpr ⟨hp, by simpa using hexp⟩)
      simp [hmem, hexp]
    · have hnot : ¬p.1 ∈ (c.cache.filter fun p => decide (now > p.2.2)).map (·.1) := by
        intro hmem
        obtain ⟨q, hq, hq1⟩ := List.mem_map.mp hmem
        have hqc := (List.mem_filter.mp hq).1
        have hqe := (List.mem_filter.mp hq).2
        have : q = p := List.inj_on_of_nodup_map hnd hqc hp hq1
        subst this
        exact hexp (by simpa using hqe)
      simp [hnot, hexp]
  refine ⟨hcache, ?_, ?_, ?_, ?_, ?_, rfl⟩ <;>
    simp [clear_expired, deleteKeys_spec]

/-- A two-entry cache: `"k"` expired at 5, `"k2"` expires at 50. -/
def c7Cache2 : CacheState where
  cache := [("k", ({ error_hash := "h", analysis := "a" }, 5)),
            ("k2", ({ error_hash := "h2", analysis := "a2" }, 50))]

/-- Witness for C7's amended theorem at a concrete cache. -/
theorem c7_sweep_amended_witness :
    (clear_expired 10 c7Cache2).1.cache =
      [("k2", ({ error_hash := "h2", analysis := "a2" }, 50))] ∧
    (clear_expired 10 c7Cache2).2 = none := by
  have h := c7_sweep_amended 10 c7Cache2 (by decide)
  exact ⟨by rw [h.1]; rfl, h.2.2.2.2.2.2⟩

/-! ## C8: skip_cache bypasses the cache but not single-flight -/

/-- C8: with `skip_cache = true` the cache object is completely untouched by
the request (entries, access order, and all counters unchanged), while the
request still takes part in single-flight: a caller finding no ticket becomes
owner (one analyzer call, ticket acquired and released), and a caller finding
an existing ticket makes no analyzer call and returns that ticket's outcome. -/
theorem c8_skip_cache_frame (env : EngineEnv) (ev : ErrorLogEvent)
    (opts : ProcessingOptions) (st : EngineState)
    (hsc : opts.skip_cache = true) :
    (process_error_log env ev opts st).2.1.cache = st.cache ∧
    (st.inflight.lookup (cacheKeyOf env ev) = none →
      (process_error_log env ev opts st).2.2 = 1 ∧
      (process_error_log env ev opts st).2.1.inflight.lookup
        (cacheKeyOf env ev) = none) ∧
    (∀ fid, st.inflight.lookup (cacheKeyOf env ev) = some fid →
      (process_error_log env ev opts st).2.2 = 0 ∧
      (process_error_log env ev opts st).2.1 = st ∧
      (process_error_log env ev opts st).1 =
        waitOutcome ((st.futures.lookup fid).getD .pending)) := by
  have hproc : process_error_log env ev opts st =
      process_after_cache env ev opts (cacheKeyOf env ev) st := by
    simp [process_error_log, hsc]
  cases hl : st.inflight.lookup (cacheKeyOf env ev) with
  | some fid =>
    have hpac : process_after_cache env ev opts (cacheKeyOf env ev) st =
        (waitOutcome ((st.futures.lookup fid).getD .pending), st, 0) := by
      rw [process_after_cache, get_or_create_inflight_some hl]
    refine ⟨?_, ?_, ?_⟩
    · rw [hproc, hpac]
    · intro h; exact absurd h (by simp)
    · intro fid' hfid'
      have heq : fid = fid' := by injection hfid'
      subst heq
      rw [hproc, hpac]
      exact ⟨rfl, rfl, rfl⟩
  | none =>
    have hcache : (process_after_cache env ev opts (cacheKeyOf env ev) st).2.1.cache
        = st.cache ∧
        (process_after_cache env ev opts (cacheKeyOf env ev) st).2.2 = 1 := by
      rw [process_after_cache, get_or_create_inflight_none hl]
      cases ha : env.analyze (hash_error_log ev.error_log).1 ev.error_log
          (env.buildCtx ev) with
      | ok result => simp [ha, hsc, clear_inflight]
      | error e => simp [ha, clear_inflight]
    refine ⟨?_, ?_, ?_⟩
    · rw [hproc]; exact hcache.1
    · intro h
      refine ⟨by rw [hproc]; exact hcache.2, ?_⟩
      rw [hproc]
      exact process_after_cache_owner_lookup env ev opts _ st hl
    · intro fid hfid; exact absurd hfid (by simp)

/-- An engine state with an unresolved in-flight ticket for the C8 witness
key, and an empty cache. -/
def c8St : EngineState where
  cache := {}
  inflight := []

/-- Witness for C8 at a concrete owner run with an always-failing analyzer:
the cache is untouched and the ticket is acquired and released. -/
theorem c8_skip_cache_frame_witness :
    (process_error_log c2Env c2Ev { skip_cache := true } c8St).2.1.cache =
      c8St.cache ∧
    (process_error_log c2Env c2Ev { skip_cache := true } c8St).2.2 = 1 := by
  have h := c8_skip_cache_frame c2Env c2Ev { skip_cache := true } c8St rfl
  exact ⟨h.1, (h.2.1 rfl).1⟩

/-! ## C9: batch isolation -/

/-- Clearing the only ticket empties the table; an owner run from an empty
ticket table ends with an empty ticket table and never blocks. -/
theorem process_inflight_nil (env : EngineEnv) (ev : ErrorLogEvent)
    (opts : ProcessingOptions) (st : EngineState) (h : st.inflight = []) :
    (process_error_log env ev opts st).2.1.inflight = [] ∧
    ¬(process_error_log env ev opts st).1 = .blocked := by
  have hac : ∀ st' : EngineState, st'.inflight = [] →
      (process_after_cache env ev opts (cacheKeyOf env ev) st').2.1.inflight = [] ∧
      ¬(process_after_cache env ev opts (cacheKeyOf env ev) st').1 = .blocked := by
    intro st' h'
    have hn : st'.inflight.lookup (cacheKeyOf env ev) = none := by rw [h']; rfl
    rw [process_after_cache, get_or_create_inflight_none hn]
    cases ha : env.analyze (hash_error_log ev.error_log).1 ev.error_log
        (env.buildCtx ev) with
    | ok result =>
      cases hsc : opts.skip_cache <;>
        simp [ha, clear_inflight, h', dictDel]
    | error e =>
      simp [ha, clear_inflight, h', dictDel]
  simp only [process_error_log]
  cases hsc : opts.skip_cache with
  | true =>
    simp only [if_true]
    exact hac st h
  | false =>
    simp only [Bool.false_eq_true, if_false]
    rcases hcg : cacheGet env.now (cacheKeyOf env ev) st.cache with ⟨o, c'⟩
    cases o with
    | some cached => exact ⟨h, by simp⟩
    | none => exact hac { st with cache := c' } h

/-- The analyzer for the C9 example: fails exactly on the event whose message
is `"e2"`. -/
def c9Env : EngineEnv where
  analyze := fun h log _ =>
    if log.message = "beta" then .error "failbeta"
    else .ok { error_hash := h, analysis := "ok" }

def c9Ev1 : ErrorLogEvent := { event_id := "1", timestamp := 0, error_log := { message := "alpha" } }
def c9Ev2 : ErrorLogEvent := { event_id := "2", timestamp := 0, error_log := { message := "beta" } }
def c9Ev3 : ErrorLogEvent := { event_id := "3", timestamp := 0, error_log := { message := "gamma" } }

/-- C9: `process_error_batch` returns one optional slot per input event, in
order; a raised failure is recorded as an absent slot and does not propagate,
so the remaining events are still processed.  In the concrete 3-event example
where only event 2 fails, the result is a 3-slot sequence whose only absent
slot is the second. -/
theorem c9_batch_isolated :
    (∀ (env : EngineEnv) (opts : ProcessingOptions) (evs : List ErrorLogEvent)
        (st : EngineState), st.inflight = [] →
      ∃ rs st', process_error_batch env opts evs st = some (rs, st') ∧
        rs.length = evs.length) ∧
    (process_error_batch c9Env {} [c9Ev1, c9Ev2, c9Ev3] { cache := {} }).map
      (fun p => p.1.map Option.isSome) = some [true, false, true] := by
  constructor
  · intro env opts evs
    induction evs with
    | nil => intro st _; exact ⟨[], st, rfl, rfl⟩
    | cons ev evs ih =>
      intro st h
      obtain ⟨hinfl, hnb⟩ := process_inflight_nil env ev opts st h
      rcases hpr : process_error_log env ev opts st with ⟨o, st1, n⟩
      rw [hpr] at hinfl hnb
      obtain ⟨rs, st', hb, hlen⟩ := ih st1 hinfl
      cases o with
      | ok r =>
        refine ⟨some r :: rs, st', ?_, by simp [hlen]⟩
        rw [process_error_batch, hpr]
        simp [hb]
      | raised e =>
        refine ⟨none :: rs, st', ?_, by simp [hlen]⟩
        rw [process_error_batch, hpr]
        simp [hb]
      | blocked => exact absurd rfl hnb
  · rfl

/-- Witness for C9's general part at a concrete singleton batch. -/
theorem c9_batch_isolated_witness :
    ∃ rs st', process_error_batch c9Env {} [c9Ev2] { cache := {} } =
      some (rs, st') ∧ rs.length = 1 :=
  c9_batch_isolated.1 c9Env {} [c9Ev2] { cache := {} } rfl

/-! ## Stable-sort lemmas (Python `sorted` with a numeric key) -/

theorem insSortedBy_perm (key : α → Nat) (x : α) (l : List α) :
    (insSortedBy key x l).Perm (x :: l) := by
  induction l with
  | nil => exact List.Perm.refl _
  | cons y ys ih =>
    rw [insSortedBy]
    by_cases h : key x < key y
    · simp [h]
    · simp only [h, if_false]
      exact (ih.cons y).trans (List.Perm.swap _ _ _)

theorem mem_insSortedBy {key : α → Nat} {x a : α} {l : List α} :
    a ∈ insSortedBy key x l ↔ a = x ∨ a ∈ l := by
  rw [(insSortedBy_perm key x l).mem_iff, List.mem_cons]

theorem insSortedBy_pairwise (key : α → Nat) (x : α) (l : List α)
    (h : l.Pairwise fun a b => key a ≤ key b) :
    (insSortedBy key x l).Pairwise fun a b => key a ≤ key b := by
  induction l with
  | nil => simp [insSortedBy]
  | cons y ys ih =>
    rw [insSortedBy]
    rcases List.pairwise_cons.mp h with ⟨hy, hys⟩
    by_cases hlt : key x < key y
    · simp only [hlt, if_pos]
      refine List.pairwise_cons.mpr ⟨?_, h⟩
      intro b hb
      rcases List.mem_cons.mp hb with rfl | hb
      · exact Nat.le_of_lt hlt
      · exact Nat.le_trans (Nat.le_of_lt hlt) (hy b hb)
    · simp only [hlt, if_false]
      refine List.pairwise_cons.mpr ⟨?_, ih hys⟩
      intro b hb
      rcases mem_insSortedBy.mp hb with rfl | hb
      · exact Nat.le_of_not_lt hlt
      · exact hy b hb

theorem sortByNum_fold_perm (key : α → Nat) :
    ∀ (l acc : List α),
      (l.foldl (fun acc x => insSortedBy key x acc) acc).Perm (l ++ acc) := by
  intro l
  induction l with
  | nil => intro acc; simp
  | cons x l ih =>
    intro acc
    have h1 : (x :: l).foldl (fun acc x => insSortedBy key x acc) acc
        = l.foldl (fun acc x => insSortedBy key x acc) (insSortedBy key x acc) := rfl
    rw [h1]
    refine ((ih _).trans ?_)
    refine (((insSortedBy_perm key x acc).append_left l).trans ?_)
    refine List.perm_middle.trans ?_
    simp

theorem sortByNum_perm (key : α → Nat) (l : List α) : (sortByNum key l).Perm l := by
  simpa using sortByNum_fold_perm key l []

theorem sortByNum_pairwise (key : α → Nat) (l : List α) :
    (sortByNum key l).Pairwise fun a b => key a ≤ key b := by
  have : ∀ (l acc : List α), acc.Pairwise (fun a b => key a ≤ key b) →
      (l.foldl (fun acc x => insSortedBy key x acc) acc).Pairwise
        fun a b => key a ≤ key b := by
    intro l
    induction l with
    | nil => intro acc h; exact h
    | cons x l ih => intro acc h; exact ih _ (insSortedBy_pairwise key x acc h)
  exact this l [] (List.Pairwise.nil)

theorem insSortedBy_filter (key : α → Nat) (x : α) (l : List α) (v : Nat)
    (h : l.Pairwise fun a b => key a ≤ key b) :
    (insSortedBy key x l).filter (fun a => decide (key a = v)) =
      if key x = v then l.filter (fun a => decide (key a = v)) ++ [x]
      else l.filter fun a => decide (key a = v) := by
  induction l with
  | nil =>
    by_cases hx : key x = v <;> simp [insSortedBy, List.filter, hx]
  | cons y ys ih =>
    rcases List.pairwise_cons.mp h with ⟨hy, hys⟩
    rw [insSortedBy]
    by_cases hlt : key x < key y
    · simp only [hlt, if_pos]
      by_cases hx : key x = v
      · have hnone : (y :: ys).filter (fun a => decide (key a = v)) = [] := by
          refine List.filter_eq_nil_iff.mpr fun b hb => ?_
          have hyb : key y ≤ key b := by
            rcases List.mem_cons.mp hb with rfl | hb
            · exact Nat.le_refl _
            · exact hy b hb
          have : v < key b := by omega
          simp; omega
        rw [List.filter_cons_of_pos (by simpa using hx), hnone]
        simp [hx, hnone]
      · rw [List.filter_cons_of_neg (by simpa using hx)]
        simp [hx]
    · simp only [hlt, if_false]
      by_cases hyv : key y = v
      · rw [List.filter_cons_of_pos (by simpa using hyv),
          List.filter_cons_of_pos (by simpa using hyv), ih hys]
        by_cases hx : key x = v <;> simp [hx]
      · rw [List.filter_cons_of_neg (by simpa using hyv),
          List.filter_cons_of_neg (by simpa using hyv), ih hys]

theorem sortByNum_filter (key : α → Nat) (l : List α) (v : Nat) :
    (sortByNum key l).filter (fun a => decide (key a = v)) =
      l.filter fun a => decide (key a = v) := by
  have main : ∀ (l acc : List α), acc.Pairwise (fun a b => key a ≤ key b) →
      (l.foldl (fun acc x => insSortedBy key x acc) acc).filter
          (fun a => decide (key a = v)) =
        acc.filter (fun a => decide (key a = v)) ++
          l.filter fun a => decide (key a = v) := by
    intro l
    induction l with
    | nil => intro acc _; simp
    | cons x l ih =>
      intro acc h
      have step := ih (insSortedBy key x acc) (insSortedBy_pairwise key x acc h)
      calc ((x :: l).foldl (fun acc x => insSortedBy key x acc) acc).filter
            (fun a => decide (key a = v))
          = (l.foldl (fun acc x => insSortedBy key x acc)
              (insSortedBy key x acc)).filter (fun a => decide (key a = v)) := rfl
        _ = (insSortedBy key x acc).filter (fun a => decide (key a = v)) ++
              l.filter (fun a => decide (key a = v)) := step
        _ = acc.filter (fun a => decide (key a = v)) ++
              (x :: l).filter (fun a => decide (key a = v)) := by
            rw [insSortedBy_filter key x acc v h]
            by_cases hx : key x = v
            · rw [if_pos hx, List.filter_cons_of_pos (by simpa using hx)]
              simp
            · rw [if_neg hx, List.filter_cons_of_neg (by simpa using hx)]
  simpa using main l [] List.Pairwise.nil

/-! ## Eviction lemmas -/

theorem map_fst_filter (q : String → Bool) (l : List (String × α)) :
    (l.filter fun p => q p.1).map (·.1) = (l.map (·.1)).filter q := by
  induction l with
  | nil => rfl
  | cons p l ih =>
    by_cases hq : q p.1 <;> simp [List.filter_cons, hq, ih]

theorem map_fst_filter_mem (vs : List String) (l : List (String × α)) :
    (l.filter fun p => decide (¬p.1 ∈ vs)).map (·.1) =
      (l.map (·.1)).filter fun k => decide (¬k ∈ vs) := by
  induction l with
  | nil => rfl
  | cons p l ih =>
    have ih' : (l.filter fun p => !decide (p.1 ∈ vs)).map (·.1) =
        (l.map (·.1)).filter fun k => !decide (k ∈ vs) := by simpa using ih
    by_cases hq : p.1 ∈ vs <;> simp [List.filter_cons, hq, ih']

theorem filter_not_mem_length (vs : List String) :
    ∀ keys : List String, keys.Nodup → vs.Nodup → (∀ v ∈ vs, v ∈ keys) →
      (keys.filter fun k => decide (¬k ∈ vs)).length = keys.length - vs.length := by
  induction vs with
  | nil => intro keys _ _ _; simp
  | cons v vs ih =>
    intro keys hk hv hsub
    have hvk : v ∈ keys := hsub v (by simp)
    have hsplit : (keys.filter fun k => decide (¬k ∈ v :: vs)) =
        ((keys.filter fun k => decide (¬k = v)).filter fun k => decide (¬k ∈ vs)) := by
      rw [List.filter_filter]
      refine List.filter_congr fun k _ => ?_
      by_cases h1 : k ∈ vs <;> by_cases h2 : k = v <;> simp [h1, h2]
    have herase : keys.filter (fun k => decide (¬k = v)) = keys.erase v := by
      rw [hk.erase_eq_filter v]
      exact List.filter_congr fun k _ => by by_cases h : k = v <;> simp [h]
    rw [hsplit, herase,
      ih (keys.erase v) (hk.erase v) (List.nodup_cons.mp hv).2 ?_]
    · rw [List.length_erase_of_mem hvk]
      have : 1 ≤ keys.length := List.length_pos.mpr (by rintro rfl; cases hvk)
      simp only [List.length_cons]
      omega
    · intro w hw
      have hwk := hsub w (by simp [hw])
      have hwv : w ≠ v := fun h => (List.nodup_cons.mp hv).1 (h ▸ hw)
      exact (List.mem_erase_of_ne hwv).mpr hwk

theorem filter_take_drop (l : List (String × α)) (hnd : (l.map (·.1)).Nodup) :
    ∀ j, (l.filter fun p => decide (¬p.1 ∈ (l.map (·.1)).take j)) = l.drop j := by
  induction l with
  | nil => intro j; simp
  | cons p l ih =>
    intro j
    cases j with
    | zero => simp
    | succ j =>
      rw [List.map_cons, List.take_succ_cons, List.drop_succ_cons, List.filter_cons]
      have hp : (decide (¬p.1 ∈ p.1 :: (l.map (·.1)).take j)) = false := by simp
      rw [hp]
      simp only [Bool.false_eq_true, if_false]
      have hnd' : (l.map (·.1)).Nodup := (List.nodup_cons.mp hnd).2
      have hpl : ¬p.1 ∈ l.map (·.1) := (List.nodup_cons.mp hnd).1
      rw [← ih hnd' j]
      refine List.filter_congr fun q hq => ?_
      have hqp : q.1 ≠ p.1 := by
        intro h
        exact hpl (h ▸ List.mem_map_of_mem (·.1) hq)
      by_cases h : q.1 ∈ (l.map (·.1)).take j <;> simp [h, hqp]

theorem evictIfNeeded_le (c : CacheState) (h : c.cache.length ≤ c.max_size) :
    evictIfNeeded c = c := by
  rw [evictIfNeeded, if_pos h]

theorem evictIfNeeded_cache_LRU (c : CacheState)
    (hpol : c.eviction_policy = "LRU") (hlen : ¬c.cache.length ≤ c.max_size) :
    (evictIfNeeded c).cache = c.cache.filter fun p =>
      decide (¬p.1 ∈ ((sortByNum (fun k => (c.access_order.lookup k).getD 0)
        (c.cache.map (·.1))).take (c.cache.length - c.max_size))) := by
  rw [evictIfNeeded, if_neg hlen, if_pos hpol, deleteKeys_spec]

theorem evictIfNeeded_cache_FIFO (c : CacheState)
    (hpol : ¬c.eviction_policy = "LRU") (hlen : ¬c.cache.length ≤ c.max_size)
    (hnd : (c.cache.map (·.1)).Nodup) :
    (evictIfNeeded c).cache = c.cache.drop (c.cache.length - c.max_size) := by
  rw [evictIfNeeded, if_neg hlen, if_neg hpol, deleteKeys_spec]
  exact filter_take_drop c.cache hnd _

theorem evictIfNeeded_length (c : CacheState) (hnd : (c.cache.map (·.1)).Nodup) :
    (evictIfNeeded c).cache.length = min c.cache.length c.max_size := by
  by_cases h : c.cache.length ≤ c.max_size
  · rw [evictIfNeeded_le c h, Nat.min_eq_left h]
  · have hmin : min c.cache.length c.max_size = c.max_size :=
      Nat.min_eq_right (Nat.le_of_not_le h)
    by_cases hpol : c.eviction_policy = "LRU"
    · set keys := c.cache.map (·.1) with hkeys
      set accK := fun k => (c.access_order.lookup k).getD 0 with haccK
      set j := c.cache.length - c.max_size with hj
      have hperm := sortByNum_perm accK keys
      have hsnd : (sortByNum accK keys).Nodup := hperm.symm.nodup hnd
      have hslen : (sortByNum accK keys).length = keys.length := hperm.length_eq
      have hklen : keys.length = c.cache.length := List.length_map _ _
      have htn : ((sortByNum accK keys).take j).Nodup :=
        hsnd.sublist (List.take_sublist j _)
      have htlen : ((sortByNum accK keys).take j).length = j := by
        rw [List.length_take]
        omega
      have hsub : ∀ v ∈ (sortByNum accK keys).take j, v ∈ keys := fun v hv =>
        hperm.mem_iff.mp (List.take_subset j _ hv)
      rw [evictIfNeeded_cache_LRU c hpol h]
      have := filter_not_mem_length ((sortByNum accK keys).take j) keys hnd htn hsub
      calc (c.cache.filter fun p =>
            decide (¬p.1 ∈ (sortByNum accK keys).take j)).length
          = ((c.cache.filter fun p =>
              decide (¬p.1 ∈ (sortByNum accK keys).take j)).map (·.1)).length :=
            (List.length_map _ _).symm
        _ = (keys.filter fun k =>
              decide (¬k ∈ (sortByNum accK keys).take j)).length := by
            rw [map_fst_filter_mem]
        _ = keys.length - ((sortByNum accK keys).take j).length := by rw [this, htlen]
        _ = min c.cache.length c.max_size := by rw [htlen, hklen, hmin]; omega
    · rw [evictIfNeeded_cache_FIFO c hpol h hnd, List.length_drop, hmin]
      omega

theorem evictIfNeeded_keys_filter (c : CacheState) :
    ∃ q : String → Bool,
      (evictIfNeeded c).cache = c.cache.filter fun p => q p.1 := by
  by_cases h : c.cache.length ≤ c.max_size
  · exact ⟨fun _ => true, by rw [evictIfNeeded_le c h, List.filter_true]⟩
  · by_cases hpol : c.eviction_policy = "LRU"
    · refine ⟨fun k => decide (¬k ∈ ((sortByNum
        (fun k => (c.access_order.lookup k).getD 0)
        (c.cache.map (·.1))).take (c.cache.length - c.max_size))), ?_⟩
      exact evictIfNeeded_cache_LRU c hpol h
    · rw [evictIfNeeded, if_neg h, if_neg hpol, deleteKeys_spec]
      exact ⟨fun k => decide (¬k ∈ ((c.cache.map (·.1)).take
        (c.cache.length - c.max_size))), rfl⟩

theorem evictIfNeeded_config (c : CacheState) :
    (evictIfNeeded c).max_size = c.max_size ∧
    (evictIfNeeded c).eviction_policy = c.eviction_policy ∧
    (evictIfNeeded c).writes = c.writes := by
  by_cases h : c.cache.length ≤ c.max_size
  · rw [evictIfNeeded_le c h]; exact ⟨rfl, rfl, rfl⟩
  · rw [evictIfNeeded, if_neg h]
    by_cases hpol : c.eviction_policy = "LRU" <;>
      simp [hpol, deleteKeys_spec]

theorem dictSet_fresh {k : String} (v : α) (l : List (String × α))
    (h : ¬k ∈ l.map (·.1)) : dictSet k v l = l ++ [(k, v)] := by
  have hany : l.any (fun p => decide (p.1 = k)) = false := by
    rw [List.any_eq_false]
    intro p hp
    simp only [decide_eq_true_eq]
    intro he
    exact h (he ▸ List.mem_map_of_mem (·.1) hp)
  rw [dictSet, if_neg (by rw [hany]; simp)]

theorem fold_cacheSet_length (now ttl : Nat) (v : AnalysisResult) :
    ∀ (ks : List String) (c : CacheState), (c.cache.map (·.1)).Nodup →
      ks.Nodup → (∀ k ∈ ks, ¬k ∈ c.cache.map (·.1)) →
      c.cache.length ≤ c.max_size →
      (ks.foldl (fun c k => cacheSet now k v ttl c) c).cache.length =
        min (c.cache.length + ks.length) c.max_size := by
  intro ks
  induction ks with
  | nil =>
    intro c _ _ _ h4
    simpa using Nat.min_eq_left h4
  | cons k ks ih =>
    intro c h1 h2 h3 h4
    have hkfresh : ¬k ∈ c.cache.map (·.1) := h3 k (by simp)
    have hpre : (cacheSet now k v ttl c).cache.length = min (c.cache.length + 1) c.max_size ∧
        ((cacheSet now k v ttl c).cache.map (·.1)).Nodup ∧
        (∀ k' ∈ ks, ¬k' ∈ (cacheSet now k v ttl c).cache.map (·.1)) ∧
        (cacheSet now k v ttl c).max_size = c.max_size := by
      rw [cacheSet]
      set cpre : CacheState := { c with
        cache := dictSet k (v, now + ttl) c.cache
        access_order := dictSet k now c.access_order
        writes := c.writes + 1 } with hcpre
      have hcache : cpre.cache = c.cache ++ [(k, (v, now + ttl))] := by
        rw [hcpre]
        exact dictSet_fresh _ _ hkfresh
      have hkeys : cpre.cache.map (·.1) = c.cache.map (·.1) ++ [k] := by
        rw [hcache, List.map_append]
        rfl
      have hnd' : (cpre.cache.map (·.1)).Nodup := by
        rw [hkeys]
        simp only [List.nodup_append]
        exact ⟨h1, List.nodup_singleton _, by simpa using fun h => hkfresh h⟩
      have hlenpre : cpre.cache.length = c.cache.length + 1 := by
        rw [hcache, List.length_append]
        rfl
      obtain ⟨qf, hqf⟩ := evictIfNeeded_keys_filter cpre
      have hkeysE : (evictIfNeeded cpre).cache.map (·.1) =
          (cpre.cache.map (·.1)).filter qf := by rw [hqf, map_fst_filter]
      refine ⟨?_, ?_, ?_, (evictIfNeeded_config cpre).1⟩
      · rw [evictIfNeeded_length cpre hnd', hlenpre]
      · rw [hkeysE]
        exact hnd'.filter qf
      · intro k' hk'
        rw [hkeysE, hkeys]
        intro hmem
        have := List.mem_of_mem_filter hmem
        rcases List.mem_append.mp this with h | h
        · exact h3 k' (by simp [hk']) h
        · have : k' = k := by simpa using h
          exact (List.nodup_cons.mp h2).1 (this ▸ hk')
    have hstep := ih (cacheSet now k v ttl c) hpre.2.1 (List.nodup_cons.mp h2).2
      hpre.2.2.1 (by rw [hpre.1, hpre.2.2.2]; exact Nat.min_le_right _ _)
    calc ((k :: ks).foldl (fun c k => cacheSet now k v ttl c) c).cache.length
        = (ks.foldl (fun c k => cacheSet now k v ttl c)
            (cacheSet now k v ttl c)).cache.length := rfl
      _ = min ((cacheSet now k v ttl c).cache.length + ks.length)
            (cacheSet now k v ttl c).max_size := hstep
      _ = min (c.cache.length + (k :: ks).length) c.max_size := by
          rw [hpre.1, hpre.2.2.2, List.length_cons]
          omega

/-! ## C6: bounded size and eviction order -/

/-- C6: `max_size` is clamped to at least 1 at construction; eviction runs
synchronously inside `set` and removes exactly `currentSize - maxSize`
entries, so the table size after any `set` is `min` of the grown size and the
bound, and inserting `maxSize + N` distinct keys into a fresh cache leaves
exactly `maxSize` entries; under LRU every evicted key's last-access time is
at most every survivor's, with ties resolved by insertion order (the evicted
key came first); under FIFO (any non-LRU policy string) exactly the
earliest-inserted entries are evicted, regardless of access. -/
theorem c6_eviction_bounds :
    (∀ (m : Nat) (pol : String), (cacheInit m pol).max_size = max 1 m) ∧
    (∀ c : CacheState, (c.cache.map (·.1)).Nodup →
      (evictIfNeeded c).cache.length = min c.cache.length c.max_size) ∧
    (∀ (now : Nat) (key : String) (value : AnalysisResult) (ttl : Nat)
        (c : CacheState), (c.cache.map (·.1)).Nodup →
      (cacheSet now key value ttl c).cache.length =
        min (dictSet key (value, now + ttl) c.cache).length c.max_size) ∧
    (∀ (m now ttl n : Nat) (pol : String) (v : AnalysisResult) (ks : List String),
      ks.Nodup → ks.length = max 1 m + n →
      (ks.foldl (fun c k => cacheSet now k v ttl c) (cacheInit m pol)).cache.length =
        max 1 m) ∧
    (∀ c : CacheState, c.eviction_policy = "LRU" → (c.cache.map (·.1)).Nodup →
      c.max_size < c.cache.length →
      ∀ ke ks', ke ∈ c.cache.map (·.1) →
        ¬ke ∈ (evictIfNeeded c).cache.map (·.1) →
        ks' ∈ (evictIfNeeded c).cache.map (·.1) →
          ((c.access_order.lookup ke).getD 0 ≤ (c.access_order.lookup ks').getD 0 ∧
           ((c.access_order.lookup ke).getD 0 = (c.access_order.lookup ks').getD 0 →
             [ke, ks'].Sublist (c.cache.map (·.1))))) ∧
    (∀ c : CacheState, ¬c.eviction_policy = "LRU" → (c.cache.map (·.1)).Nodup →
      c.max_size < c.cache.length →
      (evictIfNeeded c).cache = c.cache.drop (c.cache.length - c.max_size)) := by
  refine ⟨fun m pol => rfl, fun c h => evictIfNeeded_length c h, ?_, ?_, ?_, ?_⟩
  · intro now key value ttl c hnd
    rw [cacheSet]
    set cpre : CacheState := { c with
      cache := dictSet key (value, now + ttl) c.cache
      access_order := dictSet key now c.access_order
      writes := c.writes + 1 } with hcpre
    have hndpre : (cpre.cache.map (·.1)).Nodup := by
      rw [hcpre]
      by_cases hmem : key ∈ c.cache.map (·.1)
      · have : (dictSet key (value, now + ttl) c.cache).map (·.1) =
            c.cache.map (·.1) := by
          simp only [dictSet]
          rw [if_pos]
          · rw [List.map_map]
            refine List.map_congr_left fun p hp => ?_
            by_cases h : p.1 = key <;> simp [h]
          · rw [List.any_eq_true]
            obtain ⟨p, hp, hpk⟩ := List.mem_map.mp hmem
            exact ⟨p, hp, by simp [hpk]⟩
        rw [this]
        exact hnd
      · rw [dictSet_fresh _ _ hmem, List.map_append]
        simp only [List.nodup_append]
        exact ⟨hnd, by simp, by simpa using fun h => hmem h⟩
    exact evictIfNeeded_length cpre hndpre
  · intro m now ttl n pol v ks hnd hlen
    have := fold_cacheSet_length now ttl v ks (cacheInit m pol) (by simp [cacheInit])
      hnd (by simp [cacheInit]) (by simp [cacheInit])
    rw [this]
    simp only [cacheInit, hlen]
    omega
  · intro c hpol hnd hlt ke ks' hkein hkeout hks'
    set keys := c.cache.map (·.1) with hkeys
    set accK : String → Nat := fun k => (c.access_order.lookup k).getD 0 with haccK
    set j := c.cache.length - c.max_size with hj
    set sorted := sortByNum accK keys with hsorted
    have hnle : ¬c.cache.length ≤ c.max_size := by omega
    have hkeysE : (evictIfNeeded c).cache.map (·.1) =
        keys.filter fun k => decide (¬k ∈ sorted.take j) := by
      rw [evictIfNeeded_cache_LRU c hpol hnle, map_fst_filter_mem]
    have hperm := sortByNum_perm accK keys
    have hketake : ke ∈ sorted.take j := by
      by_contra hno
      exact hkeout (by
        rw [hkeysE]
        exact List.mem_filter.mpr ⟨hkein, by simpa using hno⟩)
    have hks'keys : ks' ∈ keys := by
      rw [hkeysE] at hks'
      exact List.mem_of_mem_filter hks'
    have hks'take : ¬ks' ∈ sorted.take j := by
      rw [hkeysE] at hks'
      have := (List.mem_filter.mp hks').2
      simpa using this
    have hks'drop : ks' ∈ sorted.drop j := by
      have hin : ks' ∈ sorted := hperm.symm.mem_iff.mp hks'keys
      have hin2 : ks' ∈ sorted.take j ++ sorted.drop j := by
        rw [List.take_append_drop]
        exact hin
      rcases List.mem_append.mp hin2 with h | h
      · exact absurd h hks'take
      · exact h
    have hpw := sortByNum_pairwise accK keys
    rw [← hsorted] at hpw
    rw [← List.take_append_drop j sorted] at hpw
    have hle : accK ke ≤ accK ks' :=
      (List.pairwise_append.mp hpw).2.2 ke hketake ks' hks'drop
    refine ⟨hle, fun htie => ?_⟩
    have hsubl : [ke, ks'].Sublist sorted := by
      have h1 : List.Sublist [ke] (sorted.take j) :=
        List.singleton_sublist.mpr hketake
      have h2 : List.Sublist [ks'] (sorted.drop j) :=
        List.singleton_sublist.mpr hks'drop
      have := h1.append h2
      rwa [List.take_append_drop j sorted] at this
    have hfl : [ke, ks'].filter (fun a => decide (accK a = accK ke)) = [ke, ks'] := by
      have htie' : accK ks' = accK ke := htie.symm
      simp [htie']
    have hchain : List.Sublist [ke, ks']
        (keys.filter fun a => decide (accK a = accK ke)) := by
      have := hsubl.filter fun a => decide (accK a = accK ke)
      rw [hfl] at this
      rw [← sortByNum_filter accK keys (accK ke)]
      exact this
    exact hchain.trans (List.filter_sublist _)
  · intro c hpol hnd hlt
    exact evictIfNeeded_cache_FIFO c hpol (by omega) hnd

/-- A concrete analysis value for the C6 witness. -/
def c6Res : AnalysisResult where
  error_hash := "h"
  analysis := "a"

/-- Witness for C6: three distinct keys into a fresh LRU cache of capacity 2
leave exactly 2 entries. -/
theorem c6_eviction_bounds_witness :
    ((["a", "b", "c"].foldl (fun c k => cacheSet 0 k c6Res 5 c)
      (cacheInit 2 "LRU")).cache.length = max 1 2) :=
  c6_eviction_bounds.2.2.2.1 2 0 5 1 "LRU" c6Res ["a", "b", "c"]
    (by decide) (by decide)

/-! ## C4: path normalization in `normalize_error_log` -/

/-- A record whose path contains a `src/` segment. -/
def c4Log1 : ErrorLog := { message := "m", file_path := some "/home/user/src/main.py" }

/-- A record whose absolute path has no source-root segment. -/
def c4Log2 : ErrorLog := { message := "m", file_path := some "/opt/tool/util.py" }

/-- A record whose path has a Windows drive-letter prefix and no root segment. -/
def c4Log3 : ErrorLog := { message := "m", file_path := some "C:\\Users\\x\\main.py" }

/-- C4 counterexample: the regex `^.*/(src|lib|app)/` removes the root segment
itself (the claim says it is preserved), keeps a leading slash when no root
segment occurs (the claim says it is removed), and never strips a drive-letter
prefix (the claim says it is stripped). -/
theorem c4_path_counterexample :
    (normalize_error_log c4Log1).file_path = some "main.py" ∧
    ¬(normalize_error_log c4Log1).file_path = some "src/main.py" ∧
    (normalize_error_log c4Log2).file_path = some "/opt/tool/util.py" ∧
    ¬(normalize_error_log c4Log2).file_path = some "opt/tool/util.py" ∧
    (normalize_error_log c4Log3).file_path = some "C:/Users/x/main.py" ∧
    ¬(normalize_error_log c4Log3).file_path = some "Users/x/main.py" := by
  refine ⟨by decide, by decide, by decide, by decide, by decide, by decide⟩

/-- C4 (amended): for a non-empty file path, normalization converts
backslashes to forward slashes; if the converted path contains a
slash-delimited source-root segment (`/src/`, `/lib/` or `/app/`), everything
up to and *including* the last reachable such segment is removed (the root
segment itself is removed, not preserved); otherwise the path is kept
entirely as converted — no drive-letter stripping and no leading-slash
removal. -/
theorem c4_path_normalization_amended :
    (∀ (e : ErrorLog) (p : String), e.file_path = some p → ¬p = "" →
      (normalize_error_log e).file_path = some (normPath p)) ∧
    (∀ (e : ErrorLog) (p : String) (pre r rest : List Char),
      e.file_path = some p → ¬p = "" →
      replaceBS p.toList = pre ++ '/' :: (r ++ '/' :: rest) →
      r ∈ rootSegs → ¬ '\n' ∈ pre →
      lastRootGo (r ++ '/' :: rest) none = none →
      (normalize_error_log e).file_path = some rest.asString) ∧
    (∀ (e : ErrorLog) (p : String), e.file_path = some p → ¬p = "" →
      lastRoot (replaceBS p.toList) = none →
      (normalize_error_log e).file_path = some (replaceBS p.toList).asString) := by
  have hbase : ∀ (e : ErrorLog) (p : String), e.file_path = some p → ¬p = "" →
      (normalize_error_log e).file_path = some (normPath p) := by
    intro e p hp hne
    simp [normalize_error_log, hp, hne]
  refine ⟨hbase, ?_, ?_⟩
  · intro e p pre r rest hp hne hdecomp hr hpre hrest
    rw [hbase e p hp hne, normPath, hdecomp,
      stripRoot_exact pre r rest hr (by simpa using hpre) hrest]
  · intro e p hp hne hnone
    rw [hbase e p hp hne, normPath, stripRoot_of_none _ hnone]

/-- Witness for C4's amended theorem: the decomposition case at a concrete
path with a `src/` segment, and the no-segment case. -/
theorem c4_path_normalization_amended_witness :
    (normalize_error_log c4Log1).file_path = some ("main.py".toList.asString) ∧
    (normalize_error_log c4Log2).file_path =
      some (replaceBS "/opt/tool/util.py".toList).asString :=
  ⟨c4_path_normalization_amended.2.1 c4Log1 "/home/user/src/main.py"
      "/home/user".toList "src".toList "main.py".toList rfl (by decide)
      (by decide) (by decide) (by decide) (by decide),
   c4_path_normalization_amended.2.2 c4Log2 "/opt/tool/util.py" rfl
      (by decide) (by decide)⟩

/-! ## C3: analyzer failures propagate verbatim; cache on the failing run -/

theorem clear_inflight_futures (key : String) (fid : Nat) (st : EngineState) :
    (clear_inflight key fid st).futures = st.futures := by
  rw [clear_inflight]
  cases st.inflight.lookup key with
  | none => rfl
  | some cur => by_cases h : cur = fid <;> simp [h]

theorem clear_inflight_cache (key : String) (fid : Nat) (st : EngineState) :
    (clear_inflight key fid st).cache = st.cache := by
  rw [clear_inflight]
  cases st.inflight.lookup key with
  | none => rfl
  | some cur => by_cases h : cur = fid <;> simp [h]

/-- The full shape of an owner run whose analyzer raises. -/
theorem process_after_cache_error (env : EngineEnv) (ev : ErrorLogEvent)
    (opts : ProcessingOptions) (key : String) (st : EngineState)
    (hn : st.inflight.lookup key = none) (e : String)
    (ha : env.analyze (hash_error_log ev.error_log).1 ev.error_log
      (env.buildCtx ev) = .error e) :
    process_after_cache env ev opts key st =
      (.raised e, clear_inflight key st.nextFutureId
        { st with
          inflight := (key, st.nextFutureId) :: st.inflight
          futures := futSet st.nextFutureId (.failed e)
            ((st.nextFutureId, .pending) :: st.futures)
          nextFutureId := st.nextFutureId + 1 }, 1) := by
  rw [process_after_cache, get_or_create_inflight_none hn]
  rw [ha]

theorem lookup_futSet_head (fid : Nat) (v : FutureState)
    (l : List (Nat × FutureState)) :
    (futSet fid v ((fid, .pending) :: l)).lookup fid = some v := by
  simp [futSet]

/-- C3 (amended): when the owner's analyzer call raises, the same failure is
raised to the immediate caller and resolved into the shared ticket (every
waiter re-raises it verbatim); no cache write occurs on the failing run (the
writes counter is unchanged and no entry is stored for the key) — the only
possible cache change for the key is that an already-expired entry was
opportunistically removed by the cache lookup itself. -/
theorem c3_failure_propagation_amended (env : EngineEnv) (ev : ErrorLogEvent)
    (opts : ProcessingOptions) (st : EngineState) (e : String)
    (hinfl : st.inflight.lookup (cacheKeyOf env ev) = none)
    (hmiss : opts.skip_cache = true ∨
      (cacheGet env.now (cacheKeyOf env ev) st.cache).1 = none)
    (ha : env.analyze (hash_error_log ev.error_log).1 ev.error_log
      (env.buildCtx ev) = .error e) :
    (process_error_log env ev opts st).1 = .raised e ∧
    waitOutcome (((process_error_log env ev opts st).2.1.futures.lookup
      st.nextFutureId).getD .pending) = .raised e ∧
    (process_error_log env ev opts st).2.1.cache.writes = st.cache.writes ∧
    ((process_error_log env ev opts st).2.1.cache.cache.lookup (cacheKeyOf env ev) =
        st.cache.cache.lookup (cacheKeyOf env ev) ∨
      ∃ v exp, st.cache.cache.lookup (cacheKeyOf env ev) = some (v, exp) ∧
        env.now > exp ∧
        (process_error_log env ev opts st).2.1.cache.cache.lookup
          (cacheKeyOf env ev) = none) := by
  set key := cacheKeyOf env ev with hkey
  have main : ∀ st' : EngineState, st'.inflight = st.inflight →
      st'.nextFutureId = st.nextFutureId → st'.futures = st.futures →
      (process_after_cache env ev opts key st').1 = .raised e ∧
      waitOutcome (((process_after_cache env ev opts key st').2.1.futures.lookup
        st.nextFutureId).getD .pending) = .raised e ∧
      (process_after_cache env ev opts key st').2.1.cache = st'.cache := by
    intro st' h1 h2 h3
    have hn : st'.inflight.lookup key = none := by rw [h1]; exact hinfl
    rw [process_after_cache_error env ev opts key st' hn e ha]
    refine ⟨rfl, ?_, by rw [clear_inflight_cache]⟩
    rw [clear_inflight_futures, h2, h3, lookup_futSet_head]
    rfl
  simp only [process_error_log, ← hkey]
  cases hsc : opts.skip_cache with
  | true =>
    simp only [if_true]
    obtain ⟨m1, m2, m3⟩ := main st rfl rfl rfl
    exact ⟨m1, m2, by rw [m3], Or.inl (by rw [m3])⟩
  | false =>
    simp only [Bool.false_eq_true, if_false]
    rcases hmiss with h | h
    · rw [hsc] at h; cases h
    · rcases hlc : st.cache.cache.lookup key with _ | ⟨v, exp⟩
      · have hcg : cacheGet env.now key st.cache =
            (none, { st.cache with misses := st.cache.misses + 1 }) := by
          rw [cacheGet, hlc]
        rw [hcg]
        obtain ⟨m1, m2, m3⟩ := main { st with
          cache := { st.cache with misses := st.cache.misses + 1 } } rfl rfl rfl
        exact ⟨m1, m2, by rw [m3], Or.inl (by rw [m3, hlc])⟩
      · by_cases hexp : env.now > exp
        · have hcg : cacheGet env.now key st.cache =
              (none, { st.cache with
                cache := dictDel key st.cache.cache
                access_order := dictDel key st.cache.access_order
                misses := st.cache.misses + 1 }) := by
            simp [cacheGet, hlc, hexp]
          rw [hcg]
          obtain ⟨m1, m2, m3⟩ := main { st with
            cache := { st.cache with
              cache := dictDel key st.cache.cache
              access_order := dictDel key st.cache.access_order
              misses := st.cache.misses + 1 } } rfl rfl rfl
          refine ⟨m1, m2, by rw [m3], Or.inr ⟨v, exp, rfl, hexp, ?_⟩⟩
          rw [m3]
          exact lookup_dictDel_self key st.cache.cache
        · have hcg : cacheGet env.now key st.cache =
              (some v, { st.cache with
                access_order := dictSet key env.now st.cache.access_order
                hits := st.cache.hits + 1 }) := by
            simp [cacheGet, hlc, hexp]
          rw [hcg] at h
          cases h

/-- Environment for the C3 counterexample: the analyzer always raises
`"boom"`, and the clock reads 100. -/
def c3Env : EngineEnv where
  now := 100
  analyze := fun _ _ _ => .error "boom"

/-- Event for the C3 counterexample. -/
def c3Ev : ErrorLogEvent := { event_id := "e", timestamp := 0, error_log := { message := "m" } }

/-- A stale cached result for the C3 counterexample. -/
def c3Res : AnalysisResult := { error_hash := "old", analysis := "stale" }

/-- Engine state whose cache holds an entry for the event's key that expired
at time 50. -/
def c3St : EngineState where
  cache := { cache := [(cacheKeyOf c3Env c3Ev, (c3Res, 50))],
             access_order := [(cacheKeyOf c3Env c3Ev, 40)] }

/-- C3 counterexample: on a failing run, the cache state for the key is *not*
unchanged — the expired entry present before the request is gone afterwards
(removed by the cache lookup), refuting "cache state for the key is unchanged
by the failed request". -/
theorem c3_failure_counterexample :
    (process_error_log c3Env c3Ev {} c3St).1 = .raised "boom" ∧
    c3St.cache.cache.lookup (cacheKeyOf c3Env c3Ev) = some (c3Res, 50) ∧
    (process_error_log c3Env c3Ev {} c3St).2.1.cache.cache.lookup
      (cacheKeyOf c3Env c3Ev) = none := by
  refine ⟨by decide, by decide, by decide⟩

/-- Witness for C3's amended theorem at the same concrete failing run. -/
theorem c3_failure_propagation_amended_witness :
    (process_error_log c3Env c3Ev {} c3St).1 = .raised "boom" ∧
    (process_error_log c3Env c3Ev {} c3St).2.1.cache.writes =
      c3St.cache.writes := by
  have h := c3_failure_propagation_amended c3Env c3Ev {} c3St "boom" rfl
    (Or.inr (by decide)) rfl
  exact ⟨h.1, h.2.2.1⟩

/-! ## C5: cosmetic differences and the fingerprint

"Differ only in ..." is formalized by inductive alikeness relations: two
strings are related when they decompose into the same sequence of common
characters and paired volatile slots (quoted literals, digit runs,
`:line:col` pairs, `at <n>ms` timestamps). -/

/-- Messages that differ only in single- or double-quoted literal values and
in digit runs.  Common characters outside slots may not be quotes or digits (a
quote in common text is expressed with a quoted slot whose two values are
equal, a digit run with a `num` slot). -/
inductive MsgRel : List Char → List Char → Prop where
  | nil : MsgRel [] []
  | same (l : List Char) : MsgRel l l
  | cons (c : Char) (hc : ¬c = '\'' ∧ ¬c = '"' ∧ c.isDigit = false)
      {s t : List Char} : MsgRel s t → MsgRel (c :: s) (c :: t)
  | squote (v w : List Char) (hv : ¬ '\'' ∈ v) (hw : ¬ '\'' ∈ w)
      {s t : List Char} : MsgRel s t →
      MsgRel ('\'' :: (v ++ '\'' :: s)) ('\'' :: (w ++ '\'' :: t))
  | dquote (v w : List Char) (hv : ¬ '\'' ∈ v ∧ ¬ '"' ∈ v)
      (hw : ¬ '\'' ∈ w ∧ ¬ '"' ∈ w) {s t : List Char} : MsgRel s t →
      MsgRel ('"' :: (v ++ '"' :: s)) ('"' :: (w ++ '"' :: t))
  | num (d1 d2 : List Char) (h1 : d1 ≠ [] ∧ ∀ c ∈ d1, c.isDigit)
      (h2 : d2 ≠ [] ∧ ∀ c ∈ d2, c.isDigit) {s t : List Char} : MsgRel s t →
      MsgRel (d1 ++ s) (d2 ++ t)

/-- After the single-quote pass: double-quoted slots and digit runs remain. -/
inductive MsgRel2 : List Char → List Char → Prop where
  | nil : MsgRel2 [] []
  | same (l : List Char) : MsgRel2 l l
  | cons (c : Char) (hc : ¬c = '"' ∧ c.isDigit = false)
      {s t : List Char} : MsgRel2 s t → MsgRel2 (c :: s) (c :: t)
  | dquote (v w : List Char) (hv : ¬ '"' ∈ v) (hw : ¬ '"' ∈ w)
      {s t : List Char} : MsgRel2 s t →
      MsgRel2 ('"' :: (v ++ '"' :: s)) ('"' :: (w ++ '"' :: t))
  | num (d1 d2 : List Char) (h1 : d1 ≠ [] ∧ ∀ c ∈ d1, c.isDigit)
      (h2 : d2 ≠ [] ∧ ∀ c ∈ d2, c.isDigit) {s t : List Char} : MsgRel2 s t →
      MsgRel2 (d1 ++ s) (d2 ++ t)

/-- After both quote passes: only digit runs remain volatile. -/
inductive MsgRel3 : List Char → List Char → Prop where
  | nil : MsgRel3 [] []
  | same (l : List Char) : MsgRel3 l l
  | cons (c : Char) (hc : c.isDigit = false)
      {s t : List Char} : MsgRel3 s t → MsgRel3 (c :: s) (c :: t)
  | num (d1 d2 : List Char) (h1 : d1 ≠ [] ∧ ∀ c ∈ d1, c.isDigit)
      (h2 : d2 ≠ [] ∧ ∀ c ∈ d2, c.isDigit) {s t : List Char} : MsgRel3 s t →
      MsgRel3 (d1 ++ s) (d2 ++ t)

/-- Stack traces that differ only in `:line:col` pairs and `at <n>ms`
timestamps; common characters may not be digits. -/
inductive StackRel : List Char → List Char → Prop where
  | nil : StackRel [] []
  | same (l : List Char) : StackRel l l
  | cons (c : Char) (hc : c.isDigit = false)
      {s t : List Char} : StackRel s t → StackRel (c :: s) (c :: t)
  | colon (d1 e1 d2 e2 : List Char)
      (hd1 : d1 ≠ [] ∧ ∀ c ∈ d1, c.isDigit) (he1 : e1 ≠ [] ∧ ∀ c ∈ e1, c.isDigit)
      (hd2 : d2 ≠ [] ∧ ∀ c ∈ d2, c.isDigit) (he2 : e2 ≠ [] ∧ ∀ c ∈ e2, c.isDigit)
      {s t : List Char} : StackRel s t →
      StackRel (':' :: (d1 ++ ':' :: (e1 ++ s))) (':' :: (d2 ++ ':' :: (e2 ++ t)))
  | ms (d1 d2 : List Char) (h1 : d1 ≠ [] ∧ ∀ c ∈ d1, c.isDigit)
      (h2 : d2 ≠ [] ∧ ∀ c ∈ d2, c.isDigit) {s t : List Char} : StackRel s t →
      StackRel ('a' :: 't' :: ' ' :: (d1 ++ 'm' :: 's' :: s))
        ('a' :: 't' :: ' ' :: (d2 ++ 'm' :: 's' :: t))

/-- After the `:line:col` pass: only `at <n>ms` slots remain. -/
inductive MsRel : List Char → List Char → Prop where
  | nil : MsRel [] []
  | same (l : List Char) : MsRel l l
  | cons (c : Char) (hc : c.isDigit = false)
      {s t : List Char} : MsRel s t → MsRel (c :: s) (c :: t)
  | ms (d1 d2 : List Char) (h1 : d1 ≠ [] ∧ ∀ c ∈ d1, c.isDigit)
      (h2 : d2 ≠ [] ∧ ∀ c ∈ d2, c.isDigit) {s t : List Char} : MsRel s t →
      MsRel ('a' :: 't' :: ' ' :: (d1 ++ 'm' :: 's' :: s))
        ('a' :: 't' :: ' ' :: (d2 ++ 'm' :: 's' :: t))

theorem dropWhile_ne_append (q : Char) (v s : List Char) (hv : ¬q ∈ v) :
    (v ++ q :: s).dropWhile (· != q) = q :: s := by
  induction v with
  | nil => simp [List.dropWhile_cons]
  | cons c v ih =>
    have hc : ¬c = q := fun h => hv (by simp [h])
    have hb : (c != q) = true := bne_iff_ne.mpr hc
    simp only [List.cons_append, List.dropWhile_cons, hb, if_pos]
    exact ih fun h => hv (by simp [h])

theorem msgRel_nil_left {s t : List Char} (h : MsgRel s t) (hs : s = []) :
    t = [] := by
  cases h with
  | nil => rfl
  | same l => exact hs
  | cons c hc rel => exact absurd hs (by simp)
  | squote v w hv hw rel => exact absurd hs (by simp)
  | dquote v w hv hw rel => exact absurd hs (by simp)
  | num d1 d2 h1 h2 rel =>
    exact absurd (List.append_eq_nil.mp hs).1 h1.1

theorem subQuote_passthrough (q : Char) (l s : List Char) (hl : ¬q ∈ l) :
    subQuote q (l ++ s) = l ++ subQuote q s := by
  induction l with
  | nil => rfl
  | cons c l ih =>
    have hc : ¬c = q := fun h => hl (by simp [h])
    rw [List.cons_append, subQuote_cons_ne q c _ hc,
      ih fun h => hl (by simp [h])]
    rfl

/-- The single-quote substitution maps `MsgRel`-alike messages to
`MsgRel2`-alike ones. -/
theorem msgRel_subSQ :
    ∀ (n : Nat) (s t : List Char), s.length ≤ n → MsgRel s t →
      MsgRel2 (subQuote '\'' s) (subQuote '\'' t) := by
  intro n
  induction n with
  | zero =>
    intro s t hn rel
    have hs : s = [] := List.eq_nil_of_length_eq_zero (Nat.le_zero.mp hn)
    have ht : t = [] := msgRel_nil_left rel hs
    rw [hs, ht]
    exact .nil
  | succ n ih =>
    intro s t hn rel
    cases rel with
    | nil => exact .nil
    | same _ => exact .same _
    | cons c hc rel' =>
      rw [subQuote_cons_ne _ c _ hc.1, subQuote_cons_ne _ c _ hc.1]
      refine .cons c ⟨hc.2.1, hc.2.2⟩ (ih _ _ ?_ rel')
      simpa using Nat.le_of_succ_le_succ hn
    | squote v w hv hw rel' =>
      rw [subQuote_cons_match '\'' _ _ (dropWhile_ne_append _ v _ hv),
        subQuote_cons_match '\'' _ _ (dropWhile_ne_append _ w _ hw)]
      refine .cons '\'' (by decide) (.cons 'X' (by decide)
        (.cons '\'' (by decide) (ih _ _ ?_ rel')))
      simp only [List.length_cons, List.length_append] at hn
      omega
    | dquote v w hv hw rel' =>
      rename_i s' t'
      have hv' : ¬ '\'' ∈ ('"' :: (v ++ ['"'])) := by
        simp only [List.mem_cons, List.mem_append, List.mem_singleton]
        rintro (h | h | h)
        · exact absurd h (by decide)
        · exact hv.1 h
        · exact absurd h (by decide)
      have hw' : ¬ '\'' ∈ ('"' :: (w ++ ['"'])) := by
        simp only [List.mem_cons, List.mem_append, List.mem_singleton]
        rintro (h | h | h)
        · exact absurd h (by decide)
        · exact hw.1 h
        · exact absurd h (by decide)
      have e1 : '"' :: (v ++ '"' :: s') = ('"' :: (v ++ ['"'])) ++ s' := by simp
      have e2 : '"' :: (w ++ '"' :: t') = ('"' :: (w ++ ['"'])) ++ t' := by simp
      rw [e1, e2, subQuote_passthrough _ _ _ hv', subQuote_passthrough _ _ _ hw']
      have e3 : ('"' :: (v ++ ['"'])) ++ subQuote '\'' s' =
          '"' :: (v ++ '"' :: subQuote '\'' s') := by simp
      have e4 : ('"' :: (w ++ ['"'])) ++ subQuote '\'' t' =
          '"' :: (w ++ '"' :: subQuote '\'' t') := by simp
      rw [e3, e4]
      refine .dquote v w hv.2 hw.2 (ih _ _ ?_ rel')
      simp only [List.length_cons, List.length_append] at hn
      omega
    | num d1 d2 h1 h2 rel' =>
      rename_i s' t'
      have hd1 : ¬ '\'' ∈ d1 := fun hmem => by
        have := h1.2 _ hmem
        simp at this
      have hd2 : ¬ '\'' ∈ d2 := fun hmem => by
        have := h2.2 _ hmem
        simp at this
      rw [subQuote_passthrough _ _ _ hd1, subQuote_passthrough _ _ _ hd2]
      refine .num d1 d2 h1 h2 (ih _ _ ?_ rel')
      have hlen : 1 ≤ d1.length := by
        cases d1 with
        | nil => exact absurd rfl h1.1
        | cons _ _ => simp
      simp only [List.length_append] at hn
      omega

theorem msgRel2_nil_left {s t : List Char} (h : MsgRel2 s t) (hs : s = []) :
    t = [] := by
  cases h with
  | nil => rfl
  | same l => exact hs
  | cons c hc rel => exact absurd hs (by simp)
  | dquote v w hv hw rel => exact absurd hs (by simp)
  | num d1 d2 h1 h2 rel =>
    exact absurd (List.append_eq_nil.mp hs).1 h1.1

/-- The double-quote substitution maps `MsgRel2`-alike strings to
`MsgRel3`-alike ones. -/
theorem msgRel2_subDQ :
    ∀ (n : Nat) (s t : List Char), s.length ≤ n → MsgRel2 s t →
      MsgRel3 (subQuote '"' s) (subQuote '"' t) := by
  intro n
  induction n with
  | zero =>
    intro s t hn rel
    have hs : s = [] := List.eq_nil_of_length_eq_zero (Nat.le_zero.mp hn)
    have ht : t = [] := msgRel2_nil_left rel hs
    rw [hs, ht]
    exact .nil
  | succ n ih =>
    intro s t hn rel
    cases rel with
    | nil => exact .nil
    | same _ => exact .same _
    | cons c hc rel' =>
      rw [subQuote_cons_ne _ c _ hc.1, subQuote_cons_ne _ c _ hc.1]
      refine .cons c hc.2 (ih _ _ ?_ rel')
      simpa using Nat.le_of_succ_le_succ hn
    | dquote v w hv hw rel' =>
      rw [subQuote_cons_match '"' _ _ (dropWhile_ne_append _ v _ hv),
        subQuote_cons_match '"' _ _ (dropWhile_ne_append _ w _ hw)]
      refine .cons '"' (by decide) (.cons 'X' (by decide)
        (.cons '"' (by decide) (ih _ _ ?_ rel')))
      simp only [List.length_cons, List.length_append] at hn
      omega
    | num d1 d2 h1 h2 rel' =>
      have hd1 : ¬ '"' ∈ d1 := fun hmem => by
        have := h1.2 _ hmem
        simp at this
      have hd2 : ¬ '"' ∈ d2 := fun hmem => by
        have := h2.2 _ hmem
        simp at this
      rw [subQuote_passthrough _ _ _ hd1, subQuote_passthrough _ _ _ hd2]
      refine .num d1 d2 h1 h2 (ih _ _ ?_ rel')
      have hlen : 1 ≤ d1.length := by
        cases d1 with
        | nil => exact absurd rfl h1.1
        | cons _ _ => simp
      simp only [List.length_append] at hn
      omega

/-- The digit-run substitution maps `MsgRel3`-alike strings to equal ones
(both scanner states). -/
theorem msgRel3_subDigits {s t : List Char} (rel : MsgRel3 s t) :
    subDigitsAux false s = subDigitsAux false t ∧
    subDigitsAux true s = subDigitsAux true t := by
  induction rel with
  | nil => exact ⟨rfl, rfl⟩
  | same l => exact ⟨rfl, rfl⟩
  | cons c hc rel ih =>
    have hcd : ¬c.isDigit := by simp [hc]
    rw [subDigitsAux_cons_nodigit false c _ hcd,
      subDigitsAux_cons_nodigit false c _ hcd,
      subDigitsAux_cons_nodigit true c _ hcd,
      subDigitsAux_cons_nodigit true c _ hcd, ih.1]
    exact ⟨rfl, rfl⟩
  | num d1 d2 h1 h2 rel ih =>
    rw [subDigitsAux_false_digits d1 _ h1.1 h1.2,
      subDigitsAux_false_digits d2 _ h2.1 h2.2,
      subDigitsAux_true_digits d1 _ h1.2,
      subDigitsAux_true_digits d2 _ h2.2, ih.2]
    exact ⟨rfl, rfl⟩

/-- Messages alike up to quoted literals and digit runs normalize equal. -/
theorem msgRel_normMessage (s t : String) (h : MsgRel s.toList t.toList) :
    normMessage s = normMessage t := by
  have h2 := msgRel_subSQ s.toList.length _ _ le_rfl h
  have h3 := msgRel2_subDQ (subQuote '\'' s.toList).length _ _ le_rfl h2
  have h4 := (msgRel3_subDigits h3).1
  unfold normMessage subDigits
  rw [h4]

/-! ### The stack-trace pipeline -/

theorem stackRel_nil_left {s t : List Char} (h : StackRel s t) (hs : s = []) :
    t = [] := by
  cases h with
  | nil => rfl
  | same l => exact hs
  | cons c hc rel => exact absurd hs (by simp)
  | colon d1 e1 d2 e2 hd1 he1 hd2 he2 rel => exact absurd hs (by simp)
  | ms d1 d2 h1 h2 rel => exact absurd hs (by simp)

/-- If the left side starts with a digit, no slot or common character can
start there, so the whole remainder is common. -/
theorem stackRel_digit_head {s t : List Char} (h : StackRel s t) (c : Char)
    (s₀ : List Char) (hs : s = c :: s₀) (hc : c.isDigit) : s = t := by
  cases h with
  | nil => exact absurd hs (by simp)
  | same l => rfl
  | cons c' hc' rel =>
    have : c' = c := by injection hs
    rw [this] at hc'
    rw [hc] at hc'
    cases hc'
  | colon d1 e1 d2 e2 hd1 he1 hd2 he2 rel =>
    have : ':' = c := by injection hs
    rw [← this] at hc
    cases hc
  | ms d1 d2 h1 h2 rel =>
    have : 'a' = c := by injection hs
    rw [← this] at hc
    cases hc

theorem stackRel_symm {s t : List Char} (h : StackRel s t) : StackRel t s := by
  induction h with
  | nil => exact .nil
  | same l => exact .same l
  | cons c hc _ ih => exact .cons c hc ih
  | colon d1 e1 d2 e2 hd1 he1 hd2 he2 _ ih => exact .colon d2 e2 d1 e1 hd2 he2 hd1 he1 ih
  | ms d1 d2 h1 h2 _ ih => exact .ms d2 d1 h2 h1 ih

theorem takeWhile_ne_nil_head {p : Char → Bool} {l : List Char}
    (h : ¬(l.takeWhile p).isEmpty) : ∃ c l₀, l = c :: l₀ ∧ p c := by
  cases l with
  | nil => simp [List.takeWhile_nil] at h
  | cons c l₀ =>
    rw [List.takeWhile_cons] at h
    by_cases hp : p c
    · exact ⟨c, l₀, rfl, hp⟩
    · simp [hp] at h

theorem dropWhile_eq_self_of_no_digit_head (l : List Char)
    (h : ¬∃ c l₀, l = c :: l₀ ∧ c.isDigit) : l.dropWhile Char.isDigit = l := by
  cases l with
  | nil => rfl
  | cons c l₀ =>
    have hc : ¬c.isDigit := fun hd => h ⟨c, l₀, rfl, hd⟩
    simp [List.dropWhile_cons, hc]

theorem subColon_passthrough (l s : List Char) (hl : ∀ c ∈ l, ¬c = ':') :
    subColon (l ++ s) = l ++ subColon s := by
  induction l with
  | nil => rfl
  | cons c l ih =>
    rw [List.cons_append, subColon_cons_ne c _ (hl c (by simp)),
      ih fun x hx => hl x (by simp [hx])]
    rfl

/-- The `:line:col` substitution maps `StackRel`-alike traces to
`MsRel`-alike ones. -/
theorem stackRel_subColon :
    ∀ (n : Nat) (s t : List Char), s.length ≤ n → StackRel s t →
      MsRel (subColon s) (subColon t) := by
  intro n
  induction n with
  | zero =>
    intro s t hn rel
    have hs : s = [] := List.eq_nil_of_length_eq_zero (Nat.le_zero.mp hn)
    have ht : t = [] := stackRel_nil_left rel hs
    rw [hs, ht]
    exact .nil
  | succ n ih =>
    intro s t hn rel
    cases rel with
    | nil => exact .nil
    | same _ => exact .same _
    | cons c hc rel' =>
      rename_i s' t'
      have hlen : s'.length ≤ n := by simpa using Nat.le_of_succ_le_succ hn
      by_cases hcc : c = ':'
      · subst hcc
        by_cases hde : (s'.takeWhile Char.isDigit).isEmpty
        · have hte : (t'.takeWhile Char.isDigit).isEmpty := by
            by_contra hne
            obtain ⟨d, t₀, ht', hd⟩ := takeWhile_ne_nil_head hne
            have := stackRel_digit_head (stackRel_symm rel') d t₀ ht' hd
            rw [← this] at hde
            rw [ht'] at hde
            simp [List.takeWhile_cons, hd] at hde
          rw [subColon_cons_nodigit s' hde, subColon_cons_nodigit t' hte]
          exact .cons ':' (by decide) (ih _ _ hlen rel')
        · obtain ⟨d, s₀, hs', hd⟩ := takeWhile_ne_nil_head hde
          have heq := stackRel_digit_head rel' d s₀ hs' hd
          rw [← heq]
          exact .same _
      · rw [subColon_cons_ne c s' hcc, subColon_cons_ne c t' hcc]
        exact .cons c hc (ih _ _ hlen rel')
    | colon d1 e1 d2 e2 hd1 he1 hd2 he2 rel' =>
      rename_i s₀ t₀
      rw [subColon_match d1 e1 s₀ hd1.1 hd1.2 he1.1 he1.2,
        subColon_match d2 e2 t₀ hd2.1 hd2.2 he2.1 he2.2]
      by_cases hdig : ∃ c s₁, s₀ = c :: s₁ ∧ c.isDigit
      · obtain ⟨c, s₁, hs₀, hc⟩ := hdig
        have heq := stackRel_digit_head rel' c s₁ hs₀ hc
        rw [← heq]
        exact .cons ':' (by decide) (.cons 'X' (by decide)
          (.cons ':' (by decide) (.cons 'X' (by decide) (.same _))))
      · have htdig : ¬∃ c t₁, t₀ = c :: t₁ ∧ c.isDigit := by
          rintro ⟨c, t₁, ht₀, hc⟩
          have := stackRel_digit_head (stackRel_symm rel') c t₁ ht₀ hc
          exact hdig ⟨c, t₁, this ▸ ht₀, hc⟩
        rw [dropWhile_eq_self_of_no_digit_head s₀ hdig,
          dropWhile_eq_self_of_no_digit_head t₀ htdig]
        refine .cons ':' (by decide) (.cons 'X' (by decide)
          (.cons ':' (by decide) (.cons 'X' (by decide) (ih _ _ ?_ rel'))))
        simp only [List.length_cons, List.length_append] at hn
        omega
    | ms d1 d2 h1 h2 rel' =>
      rename_i s₀ t₀
      have hnc1 : ∀ c ∈ 'a' :: 't' :: ' ' :: (d1 ++ ['m', 's']), ¬c = ':' := by
        intro c hcmem
        simp only [List.mem_cons, List.mem_append, List.mem_singleton,
          List.not_mem_nil, or_false] at hcmem
        rcases hcmem with rfl | rfl | rfl | hmem | rfl | rfl
        · decide
        · decide
        · decide
        · intro he
          have := h1.2 _ hmem
          rw [he] at this
          cases this
        · decide
        · decide
      have hnc2 : ∀ c ∈ 'a' :: 't' :: ' ' :: (d2 ++ ['m', 's']), ¬c = ':' := by
        intro c hcmem
        simp only [List.mem_cons, List.mem_append, List.mem_singleton,
          List.not_mem_nil, or_false] at hcmem
        rcases hcmem with rfl | rfl | rfl | hmem | rfl | rfl
        · decide
        · decide
        · decide
        · intro he
          have := h2.2 _ hmem
          rw [he] at this
          cases this
        · decide
        · decide
      have e1 : 'a' :: 't' :: ' ' :: (d1 ++ 'm' :: 's' :: s₀) =
          ('a' :: 't' :: ' ' :: (d1 ++ ['m', 's'])) ++ s₀ := by simp
      have e2 : 'a' :: 't' :: ' ' :: (d2 ++ 'm' :: 's' :: t₀) =
          ('a' :: 't' :: ' ' :: (d2 ++ ['m', 's'])) ++ t₀ := by simp
      rw [e1, e2, subColon_passthrough _ _ hnc1, subColon_passthrough _ _ hnc2]
      have e3 : ('a' :: 't' :: ' ' :: (d1 ++ ['m', 's'])) ++ subColon s₀ =
          'a' :: 't' :: ' ' :: (d1 ++ 'm' :: 's' :: subColon s₀) := by simp
      have e4 : ('a' :: 't' :: ' ' :: (d2 ++ ['m', 's'])) ++ subColon t₀ =
          'a' :: 't' :: ' ' :: (d2 ++ 'm' :: 's' :: subColon t₀) := by simp
      rw [e3, e4]
      refine .ms d1 d2 h1 h2 (ih _ _ ?_ rel')
      simp only [List.length_cons, List.length_append] at hn
      omega

theorem msRel_nil_left {s t : List Char} (h : MsRel s t) (hs : s = []) :
    t = [] := by
  cases h with
  | nil => rfl
  | same l => exact hs
  | cons c hc rel => exact absurd hs (by simp)
  | ms d1 d2 h1 h2 rel => exact absurd hs (by simp)

theorem msRel_symm {s t : List Char} (h : MsRel s t) : MsRel t s := by
  induction h with
  | nil => exact .nil
  | same l => exact .same l
  | cons c hc _ ih => exact .cons c hc ih
  | ms d1 d2 h1 h2 _ ih => exact .ms d2 d1 h2 h1 ih

/-- If the left remainder spells `t`, `' '`, then a digit — the tail of an
`at <n>ms` pattern — everything must be common. -/
theorem msRel_ts_digit {s t : List Char} (rel : MsRel s t) :
    ∀ w, s = 't' :: ' ' :: w → (∃ c w₀, w = c :: w₀ ∧ c.isDigit) → s = t := by
  cases rel with
  | nil => intro w hs _; exact absurd hs (by simp)
  | same l => intro w _ _; rfl
  | cons c hc rel' =>
    rename_i s' t'
    intro w hs hw
    rw [List.cons.injEq] at hs
    obtain ⟨hct, hs'⟩ := hs
    subst hct
    cases rel' with
    | nil => rfl
    | same l => rw [hs']
    | cons c2 hc2 rel'' =>
      rename_i s'' t''
      rw [List.cons.injEq] at hs'
      obtain ⟨hc2s, hs''⟩ := hs'
      subst hc2s
      cases rel'' with
      | nil => rfl
      | same l => rw [hs'']
      | cons c3 hc3 rel3 =>
        obtain ⟨cd, w₀, hw0, hcd⟩ := hw
        rw [hw0, List.cons.injEq] at hs''
        rw [hs''.1, hcd] at hc3
        cases hc3
      | ms d1 d2 h1 h2 rel3 =>
        obtain ⟨cd, w₀, hw0, hcd⟩ := hw
        rw [hw0, List.cons.injEq] at hs''
        rw [← hs''.1] at hcd
        cases hcd
    | ms d1 d2 h1 h2 rel'' =>
      rw [List.cons.injEq] at hs'
      exact absurd hs'.1 (by decide)
  | ms d1 d2 h1 h2 rel' =>
    intro w hs _
    rw [List.cons.injEq] at hs
    exact absurd hs.1 (by decide)

/-- `matchMs` succeeds on an `at <n>ms` slot. -/
theorem matchMs_slot (d : List Char) (hd : d ≠ []) (hdd : ∀ c ∈ d, c.isDigit)
    (r : List Char) :
    matchMs ('a' :: 't' :: ' ' :: (d ++ 'm' :: 's' :: r)) = some r := by
  have htake : (d ++ 'm' :: 's' :: r).takeWhile Char.isDigit = d := by
    rw [takeWhile_append_all _ _ _ hdd]
    simp [List.takeWhile_cons]
  have hdrop : (d ++ 'm' :: 's' :: r).dropWhile Char.isDigit = 'm' :: 's' :: r := by
    rw [dropWhile_append_all _ _ _ hdd]
    simp [List.dropWhile_cons]
  cases d with
  | nil => exact absurd rfl hd
  | cons d0 ds =>
    simp only [matchMs]
    rw [htake, hdrop]
    rfl

/-- The `at <n>ms` substitution maps `MsRel`-alike traces to equal ones. -/
theorem msRel_subMs :
    ∀ (n : Nat) (u v : List Char), u.length ≤ n → MsRel u v →
      subMs u = subMs v := by
  intro n
  induction n with
  | zero =>
    intro u v hn rel
    have hu : u = [] := List.eq_nil_of_length_eq_zero (Nat.le_zero.mp hn)
    have hv : v = [] := msRel_nil_left rel hu
    rw [hu, hv]
  | succ n ih =>
    intro u v hn rel
    cases rel with
    | nil => rfl
    | same _ => rfl
    | cons c hc rel' =>
      rename_i u' v'
      have hlen : u'.length ≤ n := by simpa using Nat.le_of_succ_le_succ hn
      cases hm : matchMs (c :: u') with
      | some r =>
        obtain ⟨d, hdne, hdd, hshape⟩ := matchMs_some _ _ hm
        have hu' : u' = 't' :: ' ' :: (d ++ 'm' :: 's' :: r) := by
          injection hshape with h1 h2
        have hdig : ∃ cd w₀, d ++ 'm' :: 's' :: r = cd :: w₀ ∧ cd.isDigit := by
          cases d with
          | nil => exact absurd rfl hdne
          | cons d0 ds => exact ⟨d0, ds ++ 'm' :: 's' :: r, by simp, hdd d0 (by simp)⟩
        have heq : u' = v' := msRel_ts_digit rel' _ hu' hdig
        rw [heq]
      | none =>
        have hm2 : matchMs (c :: v') = none := by
          cases hm2 : matchMs (c :: v') with
          | none => rfl
          | some r' =>
            obtain ⟨d, hdne, hdd, hshape⟩ := matchMs_some _ _ hm2
            have hv' : v' = 't' :: ' ' :: (d ++ 'm' :: 's' :: r') := by
              injection hshape with h1 h2
            have hdig : ∃ cd w₀, d ++ 'm' :: 's' :: r' = cd :: w₀ ∧ cd.isDigit := by
              cases d with
              | nil => exact absurd rfl hdne
              | cons d0 ds => exact ⟨d0, ds ++ 'm' :: 's' :: r', by simp, hdd d0 (by simp)⟩
            have heq : v' = u' := msRel_ts_digit (msRel_symm rel') _ hv' hdig
            rw [heq] at hm2
            rw [hm2] at hm
            cases hm
        rw [subMs_nomatch c u' hm, subMs_nomatch c v' hm2,
          ih _ _ hlen rel']
    | ms d1 d2 h1 h2 rel' =>
      rename_i u₀ v₀
      have hm1 := matchMs_slot d1 h1.1 h1.2 u₀
      have hm2 := matchMs_slot d2 h2.1 h2.2 v₀
      rw [subMs_match _ _ _ hm1, subMs_match _ _ _ hm2]
      have hlen : u₀.length ≤ n := by
        simp only [List.length_cons, List.length_append] at hn
        omega
      rw [ih _ _ hlen rel']

/-- Stack traces alike up to `:line:col` pairs and `at <n>ms` timestamps
normalize equal. -/
theorem stackRel_normStack (s t : String) (h : StackRel s.toList t.toList) :
    normStack s = normStack t := by
  have h2 := stackRel_subColon s.toList.length _ _ le_rfl h
  have h3 := msRel_subMs (subColon s.toList).length _ _ le_rfl h2
  unfold normStack
  rw [h3]

/-- Optional stack traces that differ only in `:line:col` pairs and
`at <n>ms` timestamps. -/
def StackAlike : Option String → Option String → Prop
  | none, none => True
  | some s1, some s2 => StackRel s1.toList s2.toList
  | _, _ => False

/-- Optional file paths that are equal, or differ only in an absolute-path
prefix preceding a common source-root segment. -/
def PathAlike : Option String → Option String → Prop
  | none, none => True
  | some p1, some p2 =>
    p1 = p2 ∨ (¬p1 = "" ∧ ¬p2 = "" ∧ ∃ pre1 pre2 r rest,
      replaceBS p1.toList = pre1 ++ '/' :: (r ++ '/' :: rest) ∧
      replaceBS p2.toList = pre2 ++ '/' :: (r ++ '/' :: rest) ∧
      r ∈ rootSegs ∧ ¬ '\n' ∈ pre1 ∧ ¬ '\n' ∈ pre2)
  | _, _ => False

theorem string_toList_inj {s t : String} (h : s.toList = t.toList) : s = t :=
  String.ext h

set_option maxHeartbeats 1600000 in
/-- C5 (amended): records that differ only in quoted literal values or digit
runs in the message, `:line:col` positions or `at <n>ms` timestamps in the
stack trace, or an absolute-path prefix *preceding a source-root segment*
(`src/`, `lib/` or `app/`) of the file path, hash to the same fingerprint. -/
theorem c5_fingerprint_invariance_amended (e1 e2 : ErrorLog)
    (hmsg : MsgRel e1.message.toList e2.message.toList)
    (hcode : e1.code = e2.code)
    (hstack : StackAlike e1.stack_trace e2.stack_trace)
    (hpath : PathAlike e1.file_path e2.file_path) :
    (hash_error_log e1).1 = (hash_error_log e2).1 := by
  have hm : normMessage e1.message = normMessage e2.message :=
    msgRel_normMessage _ _ hmsg
  have hs : (normalize_error_log e1).stack_trace =
      (normalize_error_log e2).stack_trace := by
    show (match e1.stack_trace with
      | some s => if s = "" then some s else some (normStack s)
      | none => none) =
      (match e2.stack_trace with
      | some s => if s = "" then some s else some (normStack s)
      | none => none)
    cases h1 : e1.stack_trace with
    | none =>
      cases h2 : e2.stack_trace with
      | none => rfl
      | some s2 =>
        rw [h1, h2] at hstack
        exact hstack.elim
    | some s1 =>
      cases h2 : e2.stack_trace with
      | none =>
        rw [h1, h2] at hstack
        exact hstack.elim
      | some s2 =>
        rw [h1, h2] at hstack
        have rel : StackRel s1.toList s2.toList := hstack
        by_cases h1e : s1 = ""
        · have hl1 : s1.toList = [] := by rw [h1e]; rfl
          have hl2 : s2.toList = [] := stackRel_nil_left rel hl1
          have h2e : s2 = "" := string_toList_inj (by rw [hl2]; rfl)
          rw [h1e, h2e]
        · have h2e : ¬s2 = "" := by
            intro h2e
            have hl2 : s2.toList = [] := by rw [h2e]; rfl
            have hl1 : s1.toList = [] := stackRel_nil_left (stackRel_symm rel) hl2
            exact h1e (string_toList_inj (by rw [hl1]; rfl))
          simp only [h1e, h2e, if_neg, not_false_iff]
          rw [stackRel_normStack s1 s2 rel]
  have hp : (normalize_error_log e1).file_path =
      (normalize_error_log e2).file_path := by
    show (match e1.file_path with
      | some p => if p = "" then some p else some (normPath p)
      | none => none) =
      (match e2.file_path with
      | some p => if p = "" then some p else some (normPath p)
      | none => none)
    cases h1 : e1.file_path with
    | none =>
      cases h2 : e2.file_path with
      | none => rfl
      | some p2 =>
        rw [h1, h2] at hpath
        exact hpath.elim
    | some p1 =>
      cases h2 : e2.file_path with
      | none =>
        rw [h1, h2] at hpath
        exact hpath.elim
      | some p2 =>
        rw [h1, h2] at hpath
        rcases hpath with heq | ⟨hne1, hne2, pre1, pre2, r, rest, hd1, hd2, hr, hp1, hp2⟩
        · rw [heq]
        · simp only [hne1, hne2, if_neg, not_false_iff]
          rw [normPath, normPath, hd1, hd2,
            stripRoot_append pre1 r rest hr hp1,
            stripRoot_append pre2 r rest hr hp2]
  have hm' : (normalize_error_log e1).error_message =
      (normalize_error_log e2).error_message := by
    dsimp only [normalize_error_log]
    exact hm
  have hcode' : (normalize_error_log e1).error_code =
      (normalize_error_log e2).error_code := by
    dsimp only [normalize_error_log]
    exact hcode
  dsimp only [hash_error_log, generate_error_hash]
  rw [hm', hcode', hp, hs]

/-- Record differing from `c5CexB` only in the absolute path prefix (no
source-root segment present). -/
def c5CexA : ErrorLog := { message := "boom", file_path := some "/alpha/main.py" }

def c5CexB : ErrorLog := { message := "boom", file_path := some "/beta/main.py" }

/-- C5 counterexample: two records that differ only in the absolute-path
prefix of the file path (with no source-root segment) produce *different*
fingerprints, since `normalize_error_log` only strips prefixes that end in a
`/(src|lib|app)/` segment. -/
theorem c5_fingerprint_counterexample :
    c5CexA.message = c5CexB.message ∧ c5CexA.code = c5CexB.code ∧
    c5CexA.stack_trace = c5CexB.stack_trace ∧
    c5CexA.line_number = c5CexB.line_number ∧
    c5CexA.context = c5CexB.context ∧
    ¬(hash_error_log c5CexA).1 = (hash_error_log c5CexB).1 :=
  ⟨rfl, rfl, rfl, rfl, rfl, by decide⟩

theorem msgRel_consList (l : List Char)
    (hl : ∀ c ∈ l, ¬c = '\'' ∧ ¬c = '"' ∧ c.isDigit = false)
    {s t : List Char} (h : MsgRel s t) : MsgRel (l ++ s) (l ++ t) := by
  induction l with
  | nil => exact h
  | cons c l ih =>
    exact .cons c (hl c (by simp)) (ih fun x hx => hl x (by simp [hx]))

theorem stackRel_consList (l : List Char) (hl : ∀ c ∈ l, c.isDigit = false)
    {s t : List Char} (h : StackRel s t) : StackRel (l ++ s) (l ++ t) := by
  induction l with
  | nil => exact h
  | cons c l ih =>
    exact .cons c (hl c (by simp)) (ih fun x hx => hl x (by simp [hx]))

/-- Witness record 1 for C5: quoted literal `'x'`, count 12, positions 10:5,
timestamp 12ms, path prefix `/h1` before `src/`. -/
def c5W1 : ErrorLog where
  message := "bad value 'x' after 12 tries"
  code := some "E1"
  file_path := some "/h1/src/app.py"
  stack_trace := some "at run (app.py:10:5) at 12ms"

/-- Witness record 2 for C5: differs from `c5W1` only in the quoted literal,
the digit runs, the line:col position, the timestamp and the path prefix. -/
def c5W2 : ErrorLog where
  message := "bad value 'y' after 34 tries"
  code := some "E1"
  file_path := some "/h2/src/app.py"
  stack_trace := some "at run (app.py:20:7) at 99ms"

/-- Witness for C5's amended theorem: the two alike records hash equal. -/
theorem c5_fingerprint_invariance_amended_witness :
    (hash_error_log c5W1).1 = (hash_error_log c5W2).1 := by
  apply c5_fingerprint_invariance_amended
  · have e1 : c5W1.message.toList = "bad value ".toList ++
        ('\'' :: (['x'] ++ '\'' :: (" after ".toList ++
          (['1', '2'] ++ " tries".toList)))) := by decide
    have e2 : c5W2.message.toList = "bad value ".toList ++
        ('\'' :: (['y'] ++ '\'' :: (" after ".toList ++
          (['3', '4'] ++ " tries".toList)))) := by decide
    rw [e1, e2]
    exact msgRel_consList ("bad value ".toList) (by decide)
      (.squote ['x'] ['y'] (by decide) (by decide)
        (msgRel_consList (" after ".toList) (by decide)
          (.num ['1', '2'] ['3', '4'] (by decide) (by decide)
            (msgRel_consList (" tries".toList) (by decide) .nil))))
  · rfl
  · show StackRel "at run (app.py:10:5) at 12ms".toList
      "at run (app.py:20:7) at 99ms".toList
    have e1 : "at run (app.py:10:5) at 12ms".toList = "at run (app.py".toList ++
        (':' :: (['1', '0'] ++ ':' :: (['5'] ++
          (") ".toList ++ ('a' :: 't' :: ' ' :: (['1', '2'] ++
            'm' :: 's' :: [])))))) := by decide
    have e2 : "at run (app.py:20:7) at 99ms".toList = "at run (app.py".toList ++
        (':' :: (['2', '0'] ++ ':' :: (['7'] ++
          (") ".toList ++ ('a' :: 't' :: ' ' :: (['9', '9'] ++
            'm' :: 's' :: [])))))) := by decide
    rw [e1, e2]
    exact stackRel_consList ("at run (app.py".toList) (by decide)
      (.colon ['1', '0'] ['5'] ['2', '0'] ['7']
          (by decide) (by decide) (by decide) (by decide)
        (stackRel_consList (") ".toList) (by decide)
          (.ms ['1', '2'] ['9', '9'] (by decide) (by decide) .nil)))
  · exact Or.inr ⟨by decide, by decide, "/h1".toList, "/h2".toList,
      "src".toList, "app.py".toList, by decide, by decide, by decide,
      by decide, by decide⟩

end Patrol
